import Mathlib

/-! The v3 request handlers of etcdkeeper, `src/etcdkeeper/main.go`.

A shallow embedding of the pure part of the v3 handlers: `strings_compare`,
`getTTL`, `del` and the path-tree builder of `getPath`.

Conventions of the embedding.

* A Go `string` is a `List Char` (`Str`); `==` is list equality and `<` is the
  lexicographic order `strLt`.
* A `map[string]interface{}` node of `getPath` is a `Node`: a field that the Go
  code may leave out of the map is an `Option`, `dir` is `true` when the map
  holds `"dir": true` and `false` when the entry is absent, and `nodes` is the
  slice stored under `"nodes"`.
* `all`, the `map[int][]map[string]interface{}` of `getPath`, is a function
  from the level to the slice stored there (`[]` for a level never written).
* The answers of the store (`cli.Get`, `cli.Delete`, `cli.Lease.TimeToLive`)
  are inputs of the embedded functions.
-/

namespace Etcdkeeper

/-- A Go string, as the list of its characters. -/
abbrev Str := List Char

/-! ## Library functions of package `strings` -/

/-- Go's `a < b` on strings: lexicographic comparison. -/
def strLt : Str → Str → Bool
  | [], [] => false
  | [], _ :: _ => true
  | _ :: _, [] => false
  | x :: xs, y :: ys => decide (x < y) || (x == y && strLt xs ys)

/-- Go's `strings.HasPrefix(s, p)`. -/
def hasPrefix (s p : Str) : Bool := p.isPrefixOf s

/-- The scan of `strings.Split` for a non-empty separator: `skip` counts the
characters of a separator occurrence still to be dropped, `cur` is the segment
read so far. -/
def splitAux (sep : Str) : Str → Nat → Str → List Str
  | [], _, cur => [cur]
  | _ :: cs, skip + 1, cur => splitAux sep cs skip cur
  | c :: cs, 0, cur =>
    if sep.isPrefixOf (c :: cs) then cur :: splitAux sep cs (sep.length - 1) []
    else splitAux sep cs 0 (cur ++ [c])

/-- Go's `strings.Split(s, sep)`: the segments of `s` between the occurrences of
`sep`, found left to right; an empty `sep` splits after every character. -/
def split (s sep : Str) : List Str :=
  if sep = [] then s.map (fun c => [c]) else splitAux sep s 0 []

/-- Go's `strings.Join(elems, sep)`. -/
def join : List Str → Str → Str
  | [], _ => []
  | [a], _ => a
  | a :: b :: rest, sep => a ++ sep ++ join (b :: rest) sep

/-! ## Data -/

/-- A record of the store (`mvccpb.KeyValue`), with the fields the handlers read. -/
structure KeyValue where
  key : Str
  value : Str
  lease : Int
  createRevision : Int
  modRevision : Int
  deriving DecidableEq

/-- The answer of `cli.Lease.TimeToLive` for a lease: an error or the TTL of
the response. -/
abbrev LeaseLookup := Int → Except Str Int

/-- A node of the tree `getPath` returns: the map with the entries `key`,
`value`, `ttl`, `createdIndex`, `modifiedIndex`, `dir` and `nodes`. -/
inductive Node where
  | mk (key : Str) (value : Option Str) (ttl : Option Int) (createdIndex : Option Int)
      (modifiedIndex : Option Int) (dir : Bool) (nodes : List Node)

namespace Node

/-- Entry `key`. -/
def key : Node → Str
  | .mk k _ _ _ _ _ _ => k

/-- Entry `value`, `none` when absent. -/
def value : Node → Option Str
  | .mk _ v _ _ _ _ _ => v

/-- Entry `ttl`, `none` when absent. -/
def ttl : Node → Option Int
  | .mk _ _ t _ _ _ _ => t

/-- Entry `createdIndex`, `none` when absent. -/
def createdIndex : Node → Option Int
  | .mk _ _ _ c _ _ _ => c

/-- Entry `modifiedIndex`, `none` when absent. -/
def modifiedIndex : Node → Option Int
  | .mk _ _ _ _ m _ _ => m

/-- Entry `dir`: `true` when the map holds `"dir": true`. -/
def dir : Node → Bool
  | .mk _ _ _ _ _ d _ => d

/-- Entry `nodes`: the children. -/
def nodes : Node → List Node
  | .mk _ _ _ _ _ _ ns => ns

/-- The two statements `pa["nodes"] = append(pa["nodes"], a)` and
`pa["dir"] = true` of the parent-child mapping. -/
def attach : Node → Node → Node
  | .mk k v t c m _ ns, a => .mk k v t c m true (ns ++ [a])

end Node

mutual
/-- The nodes of a tree in preorder, the root first. -/
def Node.subnodes : Node → List Node
  | .mk k v t c m d ns => Node.mk k v t c m d ns :: subnodesList ns
/-- The nodes of a list of trees, tree after tree. -/
def subnodesList : List Node → List Node
  | [] => []
  | n :: ns => n.subnodes ++ subnodesList ns
end

/-! ## `strings_compare` (main.go 266-285) -/

/-- The function `strings_compare(a, b)`: the length test, then for every `bv` of `b` the
flag that some `av` of `a` compares equal to it. -/
def strings_compare (a b : List Str) : Bool :=
  if a.length ≠ b.length then false
  else b.all (fun bv => a.any (fun av => bv == av))

/-! ## `getTTL` (main.go 586-595) -/

/-- The function `getTTL(lease)`: `0` on a lookup error, `0` for the TTL `-1`, the TTL of
the response otherwise. -/
def getTTL (timeToLive : LeaseLookup) (lease : Int) : Int :=
  match timeToLive lease with
  | .error _ => 0
  | .ok ttl => if ttl = -1 then 0 else ttl

/-! ## `del` (main.go 567-584) -/

/-- The store: its records, one per key. -/
abbrev Store := List KeyValue

/-- A successful `cli.Delete(ctx, key)`: the record stored under `key` is gone. -/
def storeDelete (s : Store) (key : Str) : Store :=
  s.filter (fun e => decide (e.key ≠ key))

/-- A successful `cli.Delete(ctx, p, clientv3.WithPrefix())`: every record
whose key starts with `p` is gone. -/
def storeDeletePrefix (s : Store) (p : Str) : Store :=
  s.filter (fun e => !hasPrefix e.key p)

/-- The handler `del` with both deletes succeeding: the text written to the response and
the store afterwards. `dir` is the form value of that name. -/
def del (separator key dir : Str) (s : Store) : Str × Store :=
  let s1 := storeDelete s key
  if dir = "true".toList then ("ok".toList, storeDeletePrefix s1 (key ++ separator))
  else ("ok".toList, s1)

/-! ## `getPath` (main.go 442-565) -/

/-- The variables `all` and `max` of `getPath`. -/
structure Levels where
  all : Nat → List Node
  max : Nat

/-- The assignment `all[level] = ns`. -/
def setLevel (all : Nat → List Node) (level : Nat) (ns : List Node) : Nat → List Node :=
  fun l => if l = level then ns else all l

/-- The prefix of the range query (main.go 464-470). -/
def prefixKey (separator key : Str) : Str :=
  if key = separator then separator else key ++ separator

/-- The level of the queried key, `min` (main.go 464-470). -/
def minLevel (separator key : Str) : Nat :=
  if key = separator then 1 else (split key separator).length

/-- The root node (main.go 472-479). -/
def rootNode (timeToLive : LeaseLookup) (key : Str) (presp : Option KeyValue) : Node :=
  match presp with
  | some p =>
    .mk key (some p.value) (some (getTTL timeToLive p.lease)) (some p.createRevision)
      (some p.modRevision) false []
  | none => .mk key none none none none false []

/-- The node built for the path `k` of the record `kv` (main.go 509-519). -/
def newNode (timeToLive : LeaseLookup) (key : Str) (kv : KeyValue) (k : Str) : Node :=
  if k = kv.key then
    .mk k (some kv.value) (some (if key = kv.key then getTTL timeToLive kv.lease else 0))
      (some kv.createRevision) (some kv.modRevision) false []
  else .mk k none none none none false []

/-- The body of `if begin { ... }` (main.go 509-538) for the path `k`. -/
def visit (timeToLive : LeaseLookup) (separator key : Str) (kv : KeyValue) (k : Str)
    (st : Levels) : Levels :=
  let node := newNode timeToLive key kv k
  let level := (split k separator).length
  let max := if level > st.max then level else st.max
  let levelNodes := st.all level
  let isExist := levelNodes.any (fun n => decide (n.key = k))
  if !isExist then { max := max, all := setLevel st.all level (levelNodes ++ [node]) }
  else { st with max := max }

/-- One round of `for i := range keys` (main.go 497-540), on the pair of
`begin` and the levels. -/
def pathStep (timeToLive : LeaseLookup) (separator key : Str) (kv : KeyValue)
    (keys : List Str) (s : Bool × Levels) (i : Nat) : Bool × Levels :=
  let k := join (keys.take (i + 1)) separator
  if k = [] then s
  else if key = separator then (true, visit timeToLive separator key kv k s.2)
  else if k = key then (true, s.2)
  else if s.1 then (s.1, visit timeToLive separator key kv k s.2)
  else s

/-- One round of `for _, kv := range resp.Kvs` (main.go 491-541); `begin`
starts as `false` for every record. -/
def addRecord (timeToLive : LeaseLookup) (separator key : Str) (st : Levels)
    (kv : KeyValue) : Levels :=
  if kv.key = separator then st
  else
    let keys := split kv.key separator
    ((List.range keys.length).foldl (pathStep timeToLive separator key kv keys) (false, st)).2

/-- The body of the innermost loop of the parent-child mapping
(main.go 547-555): what becomes of `pa` when `a` of level `i` is offered to it. -/
def linkOne (separator : Str) (i : Nat) (a pa : Node) : Node :=
  if i = 2 then pa.attach a
  else if hasPrefix a.key (pa.key ++ separator) then pa.attach a
  else pa

/-- The two inner loops of the parent-child mapping for one level `i`
(main.go 545-557). -/
def linkLevel (separator : Str) (i : Nat) (all : Nat → List Node) : Nat → List Node :=
  (all i).foldl
    (fun acc a => setLevel acc (i - 1) ((acc (i - 1)).map (linkOne separator i a))) all

/-- The loop `for i := max; i > min; i--` with `n` rounds left: the rounds for
`i = min + n` down to `i = min + 1`. -/
def linkLoop (separator : Str) (min : Nat) : Nat → (Nat → List Node) → (Nat → List Node)
  | 0, all => all
  | n + 1, all => linkLoop separator min n (linkLevel separator (min + n + 1) all)

/-- The levels after the loop over `resp.Kvs`, from the root alone on. -/
def buildLevels (timeToLive : LeaseLookup) (separator key : Str) (presp : Option KeyValue)
    (resp : List KeyValue) : Levels :=
  let min := minLevel separator key
  resp.foldl (addRecord timeToLive separator key)
    { all := setLevel (fun _ => []) min [rootNode timeToLive key presp], max := min }

/-- The handler `getPath` from the two answers of the store on: `presp` is the
record of the exact lookup of `key` (if any), `resp` the records of the range
query. The result is `all[min][0]`, the node written under `"node"`. -/
def getPath (timeToLive : LeaseLookup) (separator key : Str) (presp : Option KeyValue)
    (resp : List KeyValue) : Option Node :=
  let min := minLevel separator key
  let st := buildLevels timeToLive separator key presp resp
  (linkLoop separator min (st.max - min) st.all min).head?

/-! ## Notions used to state the properties of `getPath` -/

/-- The number of segments of a path: `len(strings.Split(k, separator))`, the
`level` of main.go 520. -/
def level (separator k : Str) : Nat := (split k separator).length

/-- The path made of the first `j` segments of `k`:
`strings.Join(keys[0:j], separator)` for `keys = strings.Split(k, separator)`
(main.go 498 with `j = i + 1`). -/
def pathAt (separator k : Str) (j : Nat) : Str := join ((split k separator).take j) separator

/-- The path left when the last segment of `k` is removed. -/
def parentPath (separator k : Str) : Str := join (split k separator).dropLast separator

/-- The paths of the record key `k` met in the rounds `i = min, ..., len(keys) - 1`
of the inner loop. -/
def pathsBelow (separator key k : Str) : List Str :=
  (List.range' (minLevel separator key) (level separator k - minLevel separator key)).map
    (fun i => pathAt separator k (i + 1))

/-- The pairs of a record and one of its paths in the order in which the loops
of `getPath` meet them once `begin` holds. -/
def steps (separator key : Str) (kvs : List KeyValue) : List (KeyValue × Str) :=
  kvs.flatMap (fun kv =>
    if kv.key = separator then [] else (pathsBelow separator key kv.key).map (fun k => (kv, k)))

/-- The levels after the visits `ps`, started from `st`. -/
def runSteps (timeToLive : LeaseLookup) (separator key : Str) (st : Levels)
    (ps : List (KeyValue × Str)) : Levels :=
  ps.foldl (fun s p => visit timeToLive separator key p.1 p.2 s) st

/-- The levels before the loop over `resp.Kvs`: the root alone, at level `min`. -/
def rootLevels (timeToLive : LeaseLookup) (separator key : Str) (presp : Option KeyValue) :
    Levels :=
  { all := setLevel (fun _ => []) (minLevel separator key) [rootNode timeToLive key presp],
    max := minLevel separator key }

/-- What holds of the levels `st` reached from the root alone by the visits `ps`. -/
structure LevelsInv (timeToLive : LeaseLookup) (separator key : Str) (presp : Option KeyValue)
    (ps : List (KeyValue × Str)) (st : Levels) : Prop where
  /-- The level of the query key holds the root and nothing else. -/
  root : st.all (minLevel separator key) = [rootNode timeToLive key presp]
  /-- A node of another level is the node built at the first visit of its key. -/
  src : ∀ l, l ≠ minLevel separator key → ∀ n ∈ st.all l, ∃ ps1 p ps2,
    ps = ps1 ++ p :: ps2 ∧ (∀ q ∈ ps1, q.2 ≠ p.2) ∧ n = newNode timeToLive key p.1 p.2 ∧
      level separator p.2 = l
  /-- Every visited path has a node at its level. -/
  compl : ∀ p ∈ ps, p.2 ∈ (st.all (level separator p.2)).map Node.key
  /-- No level holds a key twice. -/
  nodup : ∀ l, ((st.all l).map Node.key).Nodup
  /-- `max` is at least `min`. -/
  maxge : minLevel separator key ≤ st.max
  /-- The levels above `max` are empty. -/
  high : ∀ l, st.max < l → st.all l = []
  /-- The levels below `min` are empty. -/
  low : ∀ l, l < minLevel separator key → st.all l = []

/-- The node `pa` after the nodes `cs` were attached to it one after the other. -/
def adopt (pa : Node) (cs : List Node) : Node := cs.foldl Node.attach pa

/-- The test of the parent-child mapping (main.go 547-551) on the keys:
whether a node of level `i` with key `ak` is attached to the node with key `pk`. -/
def linkedKey (separator : Str) (i : Nat) (ak pk : Str) : Bool :=
  decide (i = 2) || hasPrefix ak (pk ++ separator)

/-- The nodes of level `l` once the `d` levels below it are linked:
every node of `all l` with the nodes of the level below that pass the test. -/
def linkedLevel (separator : Str) (all : Nat → List Node) : Nat → Nat → List Node
  | 0, l => all l
  | d + 1, l =>
    (all l).map (fun pa =>
      adopt pa ((linkedLevel separator all d (l + 1)).filter
        (fun a => linkedKey separator (l + 1) a.key pa.key)))

/-- The entries of a node that the parent-child mapping leaves alone. -/
def Node.entry (n : Node) : Str × Option Str × Option Int × Option Int × Option Int :=
  (n.key, n.value, n.ttl, n.createdIndex, n.modifiedIndex)

/-- What holds of the levels for every input: the level of the query key starts
with the root, and no node has a child or is a directory yet. -/
def Fresh (timeToLive : LeaseLookup) (separator key : Str) (presp : Option KeyValue)
    (st : Levels) : Prop :=
  (∃ tail, st.all (minLevel separator key) = rootNode timeToLive key presp :: tail) ∧
    ∀ l, ∀ n ∈ st.all l, n.nodes = [] ∧ n.dir = false

/-- The pairs of key and value of the nodes of a tree that hold a value. -/
def Node.valued (root : Node) : List (Str × Str) :=
  root.subnodes.filterMap (fun n => n.value.map (fun v => (n.key, v)))

/-- The path `p` lies strictly below the query key and is made of the first
segments of the key of some record: it is a path of that key, starts with the
prefix of the range query and is not the query key itself. -/
def pathBelow (separator key : Str) (kvs : List KeyValue) (p : Str) : Prop :=
  ∃ r ∈ kvs, ∃ j, 1 ≤ j ∧ j ≤ level separator r.key ∧ p = pathAt separator r.key j ∧
    prefixKey separator key <+: p ∧ p ≠ key

/-- The first segment of a key that starts with the separator: the segment
after the leading separator. -/
def firstSegment (separator k : Str) : Str := ((split k separator).drop 1).headD []

/-! ## `strings.Split` and `strings.Join` at a one-character separator -/

theorem join_cons_of_ne_nil (a : Str) (rest : List Str) (sep : Str) (h : rest ≠ []) :
    join (a :: rest) sep = a ++ sep ++ join rest sep := by
  cases rest with
  | nil => exact absurd rfl h
  | cons b r => rfl

theorem splitAux_single_cons (c x : Char) (xs cur : Str) :
    splitAux [c] (x :: xs) 0 cur =
      if x = c then cur :: splitAux [c] xs 0 [] else splitAux [c] xs 0 (cur ++ [x]) := by
  by_cases h : x = c
  · subst h
    simp [splitAux, List.isPrefixOf]
  · have h' : ¬ c = x := fun e => h e.symm
    simp [splitAux, List.isPrefixOf, h, h']

theorem splitAux_acc (c : Char) : ∀ (s cur : Str),
    splitAux [c] s 0 cur =
      (cur ++ (splitAux [c] s 0 []).headD []) :: (splitAux [c] s 0 []).tail := by
  intro s
  induction s with
  | nil => intro cur; simp [splitAux]
  | cons x xs ih =>
    intro cur
    rw [splitAux_single_cons, splitAux_single_cons]
    by_cases h : x = c
    · simp [h]
    · simp only [h, if_false]
      rw [ih (cur ++ [x]), ih ([] ++ [x])]
      simp

theorem split_nil (c : Char) : split [] [c] = [[]] := by
  simp [split, splitAux]

theorem split_cons (c x : Char) (xs : Str) :
    split (x :: xs) [c] =
      if x = c then [] :: split xs [c]
      else (x :: (split xs [c]).headD []) :: (split xs [c]).tail := by
  have e : ∀ s, split s [c] = splitAux [c] s 0 [] := fun s => by simp [split]
  rw [e, e, splitAux_single_cons]
  by_cases h : x = c
  · simp [h]
  · simp only [h, if_false]
    rw [splitAux_acc]
    simp

theorem split_ne_nil (c : Char) (s : Str) : split s [c] ≠ [] := by
  cases s with
  | nil => simp [split_nil]
  | cons x xs =>
    rw [split_cons]
    by_cases h : x = c <;> simp [h]

theorem split_length_pos (c : Char) (s : Str) : 0 < (split s [c]).length :=
  List.length_pos.mpr (split_ne_nil c s)

theorem split_free_segments (c : Char) : ∀ (s : Str), ∀ seg ∈ split s [c], c ∉ seg := by
  intro s
  induction s with
  | nil => intro seg h; simp [split_nil] at h; simp [h]
  | cons x xs ih =>
    intro seg h
    rw [split_cons] at h
    by_cases hx : x = c
    · simp only [hx, if_true, List.mem_cons] at h
      rcases h with h | h
      · simp [h]
      · exact ih seg h
    · simp only [hx, if_false, List.mem_cons] at h
      cases hs : split xs [c] with
      | nil => exact absurd hs (split_ne_nil c xs)
      | cons a t =>
        rw [hs] at h ih
        simp only [List.headD_cons, List.tail_cons] at h
        rcases h with h | h
        · subst h
          have := ih a (List.mem_cons_self _ _)
          simp only [List.mem_cons, not_or]
          exact ⟨fun e => hx e.symm, this⟩
        · exact ih seg (List.mem_cons_of_mem _ h)

theorem join_split (c : Char) : ∀ (s : Str), join (split s [c]) [c] = s := by
  intro s
  induction s with
  | nil => simp [split_nil, join]
  | cons x xs ih =>
    rw [split_cons]
    by_cases hx : x = c
    · simp only [hx, if_true]
      rw [join_cons_of_ne_nil _ _ _ (split_ne_nil c xs), ih]
      simp
    · simp only [hx, if_false]
      cases hs : split xs [c] with
      | nil => exact absurd hs (split_ne_nil c xs)
      | cons a t =>
        rw [hs] at ih
        simp only [List.headD_cons, List.tail_cons]
        cases t with
        | nil => simp only [join] at ih ⊢; rw [ih]
        | cons b r =>
          simp only [join] at ih ⊢
          rw [← ih]; simp

theorem split_append (c : Char) (t : Str) : ∀ (u : Str),
    split (u ++ c :: t) [c] = split u [c] ++ split t [c] := by
  intro u
  induction u with
  | nil => simp [split_nil, split_cons]
  | cons x xs ih =>
    rw [List.cons_append, split_cons, split_cons, ih]
    by_cases hx : x = c
    · simp [hx]
    · simp only [hx, if_false]
      cases hs : split xs [c] with
      | nil => exact absurd hs (split_ne_nil c xs)
      | cons a r => simp

theorem split_free (c : Char) : ∀ (s : Str), c ∉ s → split s [c] = [s] := by
  intro s
  induction s with
  | nil => intro _; exact split_nil c
  | cons x xs ih =>
    intro h
    simp only [List.mem_cons, not_or] at h
    rw [split_cons, ih h.2]
    have hx : ¬ x = c := fun e => h.1 e.symm
    simp [hx]

theorem split_join (c : Char) : ∀ (xs : List Str), xs ≠ [] → (∀ seg ∈ xs, c ∉ seg) →
    split (join xs [c]) [c] = xs := by
  intro xs
  induction xs with
  | nil => intro h; exact absurd rfl h
  | cons a rest ih =>
    intro _ hfree
    cases rest with
    | nil => simpa [join] using split_free c a (hfree a (List.mem_cons_self _ _))
    | cons b r =>
      have h1 : join (a :: b :: r) [c] = a ++ c :: join (b :: r) [c] := by simp [join]
      rw [h1, split_append, split_free c a (hfree a (List.mem_cons_self _ _)),
        ih (by simp) (fun seg hs => hfree seg (List.mem_cons_of_mem _ hs))]
      rfl

theorem join_append (c : Char) : ∀ (xs ys : List Str), xs ≠ [] → ys ≠ [] →
    join (xs ++ ys) [c] = join xs [c] ++ c :: join ys [c] := by
  intro xs
  induction xs with
  | nil => intro ys h; exact absurd rfl h
  | cons a rest ih =>
    intro ys _ hys
    cases rest with
    | nil =>
      rw [List.singleton_append, join_cons_of_ne_nil _ _ _ hys]
      simp [join]
    | cons b r =>
      have e : (a :: b :: r) ++ ys = a :: ((b :: r) ++ ys) := rfl
      have e2 : join (a :: b :: r) [c] = a ++ [c] ++ join (b :: r) [c] := rfl
      rw [e, join_cons_of_ne_nil a ((b :: r) ++ ys) [c] (by simp), ih ys (by simp) hys, e2]
      simp

/-! ## Paths of a key -/

theorem level_pos (c : Char) (k : Str) : 0 < level [c] k := split_length_pos c k

theorem split_pathAt (c : Char) (k : Str) (j : Nat) (hj : 0 < j) :
    split (pathAt [c] k j) [c] = (split k [c]).take j := by
  unfold pathAt
  apply split_join
  · intro h
    have := congrArg List.length h
    simp only [List.length_take, List.length_nil] at this
    have := split_length_pos c k
    omega
  · intro seg hs
    exact split_free_segments c k seg (List.mem_of_mem_take hs)

theorem level_pathAt (c : Char) (k : Str) (j : Nat) (hj : 0 < j) (hn : j ≤ level [c] k) :
    level [c] (pathAt [c] k j) = j := by
  unfold level at *
  rw [split_pathAt c k j hj, List.length_take]
  omega

theorem pathAt_level (c : Char) (k : Str) : pathAt [c] k (level [c] k) = k := by
  unfold pathAt level
  rw [List.take_length, join_split]

theorem level_nil (c : Char) : level [c] [] = 1 := by
  simp [level, split_nil]

theorem level_sep (c : Char) : level [c] [c] = 2 := by
  simp [level, split_cons, split_nil]

/-- When `k = stem ++ c :: rest`, the segments of `k` are those of `stem`
followed by those of `rest`. -/
theorem level_append (c : Char) (stem rest : Str) :
    level [c] (stem ++ c :: rest) = level [c] stem + level [c] rest := by
  simp [level, split_append]

theorem pathAt_append_le (c : Char) (stem rest : Str) (j : Nat) (hj : j ≤ level [c] stem) :
    pathAt [c] (stem ++ c :: rest) j = pathAt [c] stem j := by
  unfold pathAt level at *
  rw [split_append, List.take_append_of_le_length hj]

theorem pathAt_append_stem (c : Char) (stem rest : Str) :
    pathAt [c] (stem ++ c :: rest) (level [c] stem) = stem := by
  rw [pathAt_append_le c stem rest _ (le_refl _), pathAt_level]

theorem pathAt_append_gt (c : Char) (stem rest : Str) (d : Nat) (hd : 0 < d) :
    pathAt [c] (stem ++ c :: rest) (level [c] stem + d) = stem ++ c :: pathAt [c] rest d := by
  unfold pathAt level
  rw [split_append, List.take_append, join_append c _ _ (split_ne_nil c stem), join_split]
  intro h
  have := congrArg List.length h
  simp only [List.length_take, List.length_nil] at this
  have := split_length_pos c rest
  omega

theorem pathAt_prefix (c : Char) (k : Str) (j : Nat) : pathAt [c] k j <+: k := by
  by_cases hj : level [c] k ≤ j
  · unfold pathAt
    rw [List.take_of_length_le hj, join_split]
  · by_cases h0 : j = 0
    · subst h0; simp [pathAt, join]
    · have e : split k [c] = (split k [c]).take j ++ (split k [c]).drop j :=
        (List.take_append_drop j _).symm
      have h1 : (split k [c]).take j ≠ [] := by
        intro h
        have := congrArg List.length h
        simp only [List.length_take, List.length_nil] at this
        unfold level at hj; omega
      have h2 : (split k [c]).drop j ≠ [] := by
        intro h
        have := congrArg List.length h
        simp only [List.length_drop, List.length_nil] at this
        unfold level at hj; omega
      have := join_append c _ _ h1 h2
      rw [← e, join_split] at this
      exact ⟨_, this.symm⟩

theorem parentPath_pathAt (c : Char) (k : Str) (j : Nat) (hj : 0 < j) (hn : j < level [c] k) :
    parentPath [c] (pathAt [c] k (j + 1)) = pathAt [c] k j := by
  unfold parentPath
  rw [split_pathAt c k (j + 1) (by omega)]
  unfold pathAt
  congr 1
  unfold level at hn
  rw [List.dropLast_eq_take, List.length_take, List.take_take]
  congr 1
  omega

/-- A node one level below `p` whose key starts with `p ++ [c]` has `p` as its
parent path: the test of main.go 551 picks the parent. -/
theorem parentPath_of_prefix (c : Char) (p a : Str) (hl : level [c] a = level [c] p + 1)
    (hp : (p ++ [c]) <+: a) : parentPath [c] a = p := by
  obtain ⟨t, rfl⟩ := hp
  have e : p ++ [c] ++ t = p ++ c :: t := by simp
  rw [e] at hl ⊢
  rw [level_append] at hl
  have ht : level [c] t = 1 := by omega
  unfold parentPath
  rw [split_append]
  unfold level at ht
  obtain ⟨x, hx⟩ := List.length_eq_one.mp ht
  rw [hx, List.dropLast_concat, join_split]

theorem prefix_of_parentPath (c : Char) (a : Str) (hl : 2 ≤ level [c] a) :
    (parentPath [c] a ++ [c]) <+: a := by
  unfold parentPath
  unfold level at hl
  have h1 : (split a [c]).dropLast ≠ [] := by
    intro h
    have := congrArg List.length h
    simp only [List.length_dropLast, List.length_nil] at this
    omega
  have h2 := List.dropLast_append_getLast (split_ne_nil c a)
  have h3 := join_append c (split a [c]).dropLast [(split a [c]).getLast (split_ne_nil c a)] h1
    (by simp)
  rw [h2, join_split] at h3
  refine ⟨(split a [c]).getLast (split_ne_nil c a), ?_⟩
  have h4 : join [(split a [c]).getLast (split_ne_nil c a)] [c] =
      (split a [c]).getLast (split_ne_nil c a) := rfl
  rw [h4] at h3
  simpa using h3.symm

theorem level_parentPath (c : Char) (a : Str) (hl : 2 ≤ level [c] a) :
    level [c] (parentPath [c] a) + 1 = level [c] a := by
  unfold parentPath level at *
  rw [split_join]
  · simp only [List.length_dropLast]; omega
  · intro h
    have := congrArg List.length h
    simp only [List.length_dropLast, List.length_nil] at this
    omega
  · intro seg hs
    exact split_free_segments c a seg (List.mem_of_mem_dropLast hs)

/-! ## The order of strings -/

theorem strLt_cons (x y : Char) (xs ys : Str) :
    strLt (x :: xs) (y :: ys) = true ↔ x < y ∨ (x = y ∧ strLt xs ys = true) := by
  simp [strLt]

theorem strLt_nil_right (s : Str) : strLt s [] = false := by
  cases s <;> rfl

theorem strLt_of_prefix_ne : ∀ (p s : Str), p <+: s → p ≠ s → strLt p s = true := by
  intro p
  induction p with
  | nil =>
    intro s _ hne
    cases s with
    | nil => exact absurd rfl hne
    | cons y ys => rfl
  | cons x p ih =>
    intro s h hne
    obtain ⟨t, rfl⟩ := h
    rw [List.cons_append, strLt_cons]
    refine Or.inr ⟨rfl, ih (p ++ t) ⟨t, rfl⟩ ?_⟩
    intro e
    apply hne
    rw [List.cons_append, ← e]

theorem strLt_total : ∀ (a b : Str), strLt b a = false → a = b ∨ strLt a b = true := by
  intro a
  induction a with
  | nil =>
    intro b _
    cases b with
    | nil => exact Or.inl rfl
    | cons y ys => exact Or.inr rfl
  | cons x xs ih =>
    intro b h
    cases b with
    | nil => simp [strLt] at h
    | cons y ys =>
      rw [Bool.eq_false_iff] at h
      rcases lt_trichotomy x y with hxy | hxy | hxy
      · exact Or.inr ((strLt_cons _ _ _ _).mpr (Or.inl hxy))
      · subst hxy
        have h' : strLt ys xs = false := by
          rw [Bool.eq_false_iff]
          intro e
          exact h ((strLt_cons _ _ _ _).mpr (Or.inr ⟨rfl, e⟩))
        rcases ih ys h' with e | e
        · exact Or.inl (by rw [e])
        · exact Or.inr ((strLt_cons _ _ _ _).mpr (Or.inr ⟨rfl, e⟩))
      · exact absurd ((strLt_cons _ _ _ _).mpr (Or.inl hxy)) h

theorem pathAt_zero (c : Char) (k : Str) : pathAt [c] k 0 = [] := by
  simp [pathAt, join]

theorem pathAt_nil (c : Char) (j : Nat) : pathAt [c] [] j = [] := by
  cases j with
  | zero => exact pathAt_zero c []
  | succ j => simp [pathAt, split_nil, join]

theorem pathAt_cons_sep (c : Char) (xs : Str) (j : Nat) :
    pathAt [c] (c :: xs) (j + 1) = if j = 0 then [] else c :: pathAt [c] xs j := by
  unfold pathAt
  rw [split_cons]
  simp only [if_true, List.take_succ_cons]
  by_cases hj : j = 0
  · subst hj; simp [join]
  · rw [if_neg hj, join_cons_of_ne_nil]
    · simp
    · intro h
      have := congrArg List.length h
      simp only [List.length_take, List.length_nil] at this
      have := split_length_pos c xs
      omega

theorem pathAt_cons_other (c x : Char) (xs : Str) (j : Nat) (hx : x ≠ c) :
    pathAt [c] (x :: xs) (j + 1) = x :: pathAt [c] xs (j + 1) := by
  unfold pathAt
  rw [split_cons]
  simp only [hx, if_false]
  cases hs : split xs [c] with
  | nil => exact absurd hs (split_ne_nil c xs)
  | cons a t =>
    simp only [List.headD_cons, List.tail_cons, List.take_succ_cons]
    cases List.take j t with
    | nil => simp [join]
    | cons b r => simp [join]

/-- Cutting two keys after the same number of segments keeps their order, when
no character of the smaller key is below the separator. -/
theorem pathAt_mono (c : Char) : ∀ (s s' : Str) (j : Nat), (∀ x ∈ s, ¬ x < c) →
    strLt s s' = true → pathAt [c] s j = pathAt [c] s' j ∨
      strLt (pathAt [c] s j) (pathAt [c] s' j) = true := by
  intro s
  induction s with
  | nil =>
    intro s' j _ _
    rw [pathAt_nil]
    cases h : pathAt [c] s' j with
    | nil => exact Or.inl rfl
    | cons y ys => exact Or.inr rfl
  | cons x xs ih =>
    intro s' j hge hlt
    cases s' with
    | nil => simp [strLt] at hlt
    | cons y ys =>
      cases j with
      | zero => rw [pathAt_zero, pathAt_zero]; exact Or.inl rfl
      | succ j =>
        have hx : ¬ x < c := hge x (List.mem_cons_self _ _)
        rcases (strLt_cons _ _ _ _).mp hlt with hxy | ⟨hxy, hrest⟩
        · have hy : y ≠ c := by
            intro e; subst e; exact hx hxy
          rw [pathAt_cons_other c y ys j hy]
          by_cases hxc : x = c
          · subst hxc
            rw [pathAt_cons_sep]
            split
            · exact Or.inr rfl
            · exact Or.inr ((strLt_cons _ _ _ _).mpr (Or.inl hxy))
          · rw [pathAt_cons_other c x xs j hxc]
            exact Or.inr ((strLt_cons _ _ _ _).mpr (Or.inl hxy))
        · subst hxy
          have hxs : ∀ z ∈ xs, ¬ z < c := fun z hz => hge z (List.mem_cons_of_mem _ hz)
          by_cases hxc : x = c
          · subst hxc
            rw [pathAt_cons_sep, pathAt_cons_sep]
            split
            · exact Or.inl rfl
            · rcases ih ys j hxs hrest with e | e
              · exact Or.inl (by rw [e])
              · exact Or.inr ((strLt_cons _ _ _ _).mpr (Or.inr ⟨rfl, e⟩))
          · rw [pathAt_cons_other c x xs j hxc, pathAt_cons_other c x ys j hxc]
            rcases ih ys (j + 1) hxs hrest with e | e
            · exact Or.inl (by rw [e])
            · exact Or.inr ((strLt_cons _ _ _ _).mpr (Or.inr ⟨rfl, e⟩))

/-- The same behind a common beginning of the two keys, whose characters may be
anything: only the characters behind it must not be below the separator. -/
theorem pathAt_mono_append (c : Char) : ∀ (P t t' : Str) (j : Nat), (∀ x ∈ t, ¬ x < c) →
    strLt (P ++ t) (P ++ t') = true →
    pathAt [c] (P ++ t) j = pathAt [c] (P ++ t') j ∨
      strLt (pathAt [c] (P ++ t) j) (pathAt [c] (P ++ t') j) = true := by
  intro P
  induction P with
  | nil => intro t t' j hge hlt; exact pathAt_mono c t t' j hge hlt
  | cons x P ih =>
    intro t t' j hge hlt
    rw [List.cons_append, List.cons_append] at hlt ⊢
    have hrest : strLt (P ++ t) (P ++ t') = true := by
      rcases (strLt_cons _ _ _ _).mp hlt with h | ⟨_, h⟩
      · exact absurd h (lt_irrefl _)
      · exact h
    cases j with
    | zero => rw [pathAt_zero, pathAt_zero]; exact Or.inl rfl
    | succ j =>
      by_cases hxc : x = c
      · subst hxc
        rw [pathAt_cons_sep, pathAt_cons_sep]
        split
        · exact Or.inl rfl
        · rcases ih t t' j hge hrest with e | e
          · exact Or.inl (by rw [e])
          · exact Or.inr ((strLt_cons _ _ _ _).mpr (Or.inr ⟨rfl, e⟩))
      · rw [pathAt_cons_other c x _ j hxc, pathAt_cons_other c x _ j hxc]
        rcases ih t t' (j + 1) hge hrest with e | e
        · exact Or.inl (by rw [e])
        · exact Or.inr ((strLt_cons _ _ _ _).mpr (Or.inr ⟨rfl, e⟩))

/-! ## The inner loop of `getPath` in closed form -/

/-- A record key below the query key splits into the query key (nothing for the
root query), one separator and a rest. -/
theorem record_decomp (c : Char) (key k : Str) (hp : prefixKey [c] key <+: k) :
    ∃ stem rest, k = stem ++ c :: rest ∧ minLevel [c] key = level [c] stem ∧
      (key = [c] → stem = []) ∧ (key ≠ [c] → stem = key) := by
  by_cases h : key = [c]
  · obtain ⟨rest, hr⟩ := hp
    refine ⟨[], rest, ?_, ?_, fun _ => rfl, fun h' => absurd h h'⟩
    · simp [prefixKey, h] at hr
      simp [hr]
    · simp [minLevel, h, level_nil]
  · obtain ⟨rest, hr⟩ := hp
    refine ⟨key, rest, ?_, ?_, fun h' => absurd h' h, fun _ => rfl⟩
    · simp [prefixKey, h] at hr
      simp [← hr]
    · simp [minLevel, h, level]

theorem pathStep_pre (tl : LeaseLookup) (c : Char) (key : Str) (kv : KeyValue) (st : Levels)
    (hne : key ≠ [c]) (i : Nat) (hi : i + 1 < level [c] key) (hn : i + 1 ≤ level [c] kv.key) :
    pathStep tl [c] key kv (split kv.key [c]) (false, st) i = (false, st) := by
  have hk : pathAt [c] kv.key (i + 1) ≠ key := by
    intro h
    have := level_pathAt c kv.key (i + 1) (by omega) hn
    rw [h] at this
    omega
  unfold pathStep
  unfold pathAt at hk
  simp only [hne, hk, if_false]
  split <;> rfl

theorem pathStep_post (tl : LeaseLookup) (c : Char) (key : Str) (kv : KeyValue) (st : Levels)
    (b : Bool) (hb : key = [c] ∨ b = true) (i : Nat) (hi : minLevel [c] key < i + 1)
    (hn : i + 1 ≤ level [c] kv.key) :
    pathStep tl [c] key kv (split kv.key [c]) (b, st) i =
      (true, visit tl [c] key kv (pathAt [c] kv.key (i + 1)) st) := by
  have hl := level_pathAt c kv.key (i + 1) (by omega) hn
  have hm : 1 ≤ minLevel [c] key := by
    unfold minLevel
    split
    · exact le_refl _
    · exact split_length_pos c key
  have h0 : pathAt [c] kv.key (i + 1) ≠ [] := by
    intro h
    rw [h, level_nil] at hl
    omega
  unfold pathStep
  unfold pathAt at h0
  simp only [h0, if_false]
  by_cases hr : key = [c]
  · simp only [hr, if_true]; rfl
  · have hk : pathAt [c] kv.key (i + 1) ≠ key := by
      intro h
      rw [h] at hl
      simp only [minLevel, hr, if_false] at hi
      unfold level at hl
      omega
    unfold pathAt at hk
    rcases hb with hb | hb
    · exact absurd hb hr
    · subst hb
      simp only [hr, hk, if_false, if_true]
      rfl

theorem foldl_pathStep_pre (tl : LeaseLookup) (c : Char) (key : Str) (kv : KeyValue)
    (st : Levels) (hne : key ≠ [c]) (hn : level [c] key ≤ level [c] kv.key) :
    ∀ a, a + 1 ≤ level [c] key →
      (List.range' 0 a).foldl (pathStep tl [c] key kv (split kv.key [c])) (false, st) =
        (false, st) := by
  intro a
  induction a with
  | zero => intro _; rfl
  | succ a ih =>
    intro ha
    rw [List.range'_concat, List.foldl_append, ih (by omega)]
    simp only [List.foldl_cons, List.foldl_nil, Nat.zero_add, Nat.one_mul]
    exact pathStep_pre tl c key kv st hne a (by omega) (by omega)

theorem foldl_pathStep_post (tl : LeaseLookup) (c : Char) (key : Str) (kv : KeyValue) :
    ∀ (len start : Nat) (b : Bool) (st : Levels), (key = [c] ∨ b = true) →
      minLevel [c] key ≤ start → start + len ≤ level [c] kv.key →
      ((List.range' start len).foldl (pathStep tl [c] key kv (split kv.key [c])) (b, st)).2 =
        (List.range' start len).foldl
          (fun s i => visit tl [c] key kv (pathAt [c] kv.key (i + 1)) s) st := by
  intro len
  induction len with
  | zero => intro start b st _ _ _; rfl
  | succ len ih =>
    intro start b st hb hs hn
    rw [List.range'_succ]
    simp only [List.foldl_cons]
    rw [pathStep_post tl c key kv st b hb start (by omega) (by omega)]
    exact ih (start + 1) true _ (Or.inr rfl) (by omega) (by omega)

/-- One record of the range query, in closed form: the rounds before `begin`
change nothing, the later ones visit the paths below the query key in turn. -/
theorem addRecord_eq (tl : LeaseLookup) (c : Char) (key : Str) (kv : KeyValue) (st : Levels)
    (hkey : key ≠ []) (hp : prefixKey [c] key <+: kv.key) (hsep : kv.key ≠ [c]) :
    addRecord tl [c] key st kv =
      (pathsBelow [c] key kv.key).foldl (fun s k => visit tl [c] key kv k s) st := by
  obtain ⟨stem, rest, hk, hm, hroot, hnon⟩ := record_decomp c key kv.key hp
  have hlev : level [c] kv.key = level [c] stem + level [c] rest := by
    rw [hk, level_append]
  have hrest := level_pos c rest
  have hstem := level_pos c stem
  unfold addRecord pathsBelow
  simp only [hsep, if_false]
  rw [List.foldl_map]
  have hsplit : List.range (split kv.key [c]).length =
      List.range' 0 (level [c] stem - 1) ++ (level [c] stem - 1) ::
        List.range' (level [c] stem) (level [c] rest) := by
    rw [List.range_eq_range']
    have e1 : (split kv.key [c]).length =
        (level [c] stem - 1) + (1 + level [c] rest) := by
      have : (split kv.key [c]).length = level [c] kv.key := rfl
      omega
    have e2 := List.range'_append_1 0 (level [c] stem - 1) (level [c] rest + 1)
    have e3 : level [c] stem - 1 + (1 + level [c] rest) =
        level [c] rest + 1 + (level [c] stem - 1) := by omega
    rw [e1, e3, ← e2, List.range'_succ]
    simp only [Nat.zero_add]
    congr 3
    omega
  rw [hsplit, List.foldl_append, List.foldl_cons]
  have hmid : pathAt [c] kv.key (level [c] stem - 1 + 1) = stem := by
    have : level [c] stem - 1 + 1 = level [c] stem := by omega
    rw [this, hk, pathAt_append_stem]
  by_cases hr : key = [c]
  · -- the root query: the only round before `begin` meets the empty path
    have hs := hroot hr
    have h1 : level [c] stem - 1 = 0 := by rw [hs, level_nil]
    have hstep : pathStep tl [c] key kv (split kv.key [c]) (false, st) (level [c] stem - 1) =
        (false, st) := by
      unfold pathStep
      have : join ((split kv.key [c]).take (level [c] stem - 1 + 1)) [c] = [] := by
        have := hmid
        unfold pathAt at this
        rw [this, hs]
      simp only [this, if_true]
    rw [h1] at hstep ⊢
    simp only [List.range'_zero, List.foldl_nil]
    rw [hstep]
    have := foldl_pathStep_post tl c key kv (level [c] rest) (level [c] stem) false st
      (Or.inl hr) (by omega) (by omega)
    rw [this]
    congr 2 <;> omega
  · have hs := hnon hr
    have hpre := foldl_pathStep_pre tl c key kv st hr (by rw [← hs]; omega)
      (level [c] stem - 1) (by rw [← hs]; omega)
    rw [hpre]
    have hstep : pathStep tl [c] key kv (split kv.key [c]) (false, st) (level [c] stem - 1) =
        (true, st) := by
      unfold pathStep
      have : join ((split kv.key [c]).take (level [c] stem - 1 + 1)) [c] = key := by
        have := hmid
        unfold pathAt at this
        rw [this, hs]
      simp only [this, hkey, hr, if_false, if_true]
    rw [hstep]
    have := foldl_pathStep_post tl c key kv (level [c] rest) (level [c] stem) true st
      (Or.inr rfl) (by omega) (by omega)
    rw [this]
    congr 2 <;> omega

/-! ## The levels after the loop over the records -/

theorem addRecord_empty_key (tl : LeaseLookup) (c : Char) (kv : KeyValue) (st : Levels) :
    addRecord tl [c] [] st kv = st := by
  unfold addRecord
  split
  · rfl
  · have h : ∀ (l : List Nat),
        l.foldl (pathStep tl [c] [] kv (split kv.key [c])) (false, st) = (false, st) := by
      intro l
      induction l with
      | nil => rfl
      | cons i l ih =>
        rw [List.foldl_cons]
        have : pathStep tl [c] [] kv (split kv.key [c]) (false, st) i = (false, st) := by
          unfold pathStep
          by_cases hk : join ((split kv.key [c]).take (i + 1)) [c] = []
          · simp only [hk, if_true]
          · have hk' : ¬ [] = [c] := by simp
            simp [hk, hk']
        rw [this, ih]
    simp only [h]

theorem buildLevels_empty_key (tl : LeaseLookup) (c : Char) (presp : Option KeyValue)
    (kvs : List KeyValue) :
    buildLevels tl [c] [] presp kvs = rootLevels tl [c] [] presp := by
  have h : ∀ (st : Levels), kvs.foldl (addRecord tl [c] []) st = st := by
    induction kvs with
    | nil => intro st; rfl
    | cons kv rest ih => intro st; rw [List.foldl_cons, addRecord_empty_key, ih]
  exact h _

theorem foldl_addRecord_eq (tl : LeaseLookup) (c : Char) (key : Str) (hkey : key ≠ []) :
    ∀ (kvs : List KeyValue) (st : Levels), (∀ kv ∈ kvs, prefixKey [c] key <+: kv.key) →
      kvs.foldl (addRecord tl [c] key) st = runSteps tl [c] key st (steps [c] key kvs) := by
  intro kvs
  induction kvs with
  | nil => intro st _; rfl
  | cons kv rest ih =>
    intro st hp
    have hrest := ih (addRecord tl [c] key st kv) (fun x hx => hp x (List.mem_cons_of_mem _ hx))
    rw [List.foldl_cons, hrest]
    unfold steps runSteps
    rw [List.flatMap_cons, List.foldl_append]
    congr 1
    by_cases hs : kv.key = [c]
    · simp [hs, addRecord]
    · simp only [hs, if_false]
      rw [addRecord_eq tl c key kv st hkey (hp kv (List.mem_cons_self _ _)) hs, List.foldl_map]

/-- The loop over the records, in closed form. -/
theorem buildLevels_eq (tl : LeaseLookup) (c : Char) (key : Str) (presp : Option KeyValue)
    (kvs : List KeyValue) (hkey : key ≠ []) (hp : ∀ kv ∈ kvs, prefixKey [c] key <+: kv.key) :
    buildLevels tl [c] key presp kvs =
      runSteps tl [c] key (rootLevels tl [c] key presp) (steps [c] key kvs) :=
  foldl_addRecord_eq tl c key hkey kvs _ hp

theorem newNode_key (tl : LeaseLookup) (key : Str) (kv : KeyValue) (k : Str) :
    (newNode tl key kv k).key = k := by
  unfold newNode; split <;> rfl

theorem newNode_nodes (tl : LeaseLookup) (key : Str) (kv : KeyValue) (k : Str) :
    (newNode tl key kv k).nodes = [] := by
  unfold newNode; split <;> rfl

theorem newNode_dir (tl : LeaseLookup) (key : Str) (kv : KeyValue) (k : Str) :
    (newNode tl key kv k).dir = false := by
  unfold newNode; split <;> rfl

theorem any_key_iff (ns : List Node) (k : Str) :
    ns.any (fun n => decide (n.key = k)) = true ↔ k ∈ ns.map Node.key := by
  simp only [List.any_eq_true, decide_eq_true_eq, List.mem_map]

theorem visit_all_other (tl : LeaseLookup) (sep key : Str) (kv : KeyValue) (k : Str)
    (st : Levels) (l : Nat) (h : l ≠ level sep k) :
    (visit tl sep key kv k st).all l = st.all l := by
  have h' : l ≠ (split k sep).length := h
  unfold visit
  simp only
  split
  · simp only [setLevel]
    rw [if_neg h']
  · rfl

theorem visit_all_same (tl : LeaseLookup) (sep key : Str) (kv : KeyValue) (k : Str)
    (st : Levels) :
    (visit tl sep key kv k st).all (level sep k) =
      if k ∈ (st.all (level sep k)).map Node.key then st.all (level sep k)
      else st.all (level sep k) ++ [newNode tl key kv k] := by
  unfold visit
  simp only
  by_cases h : k ∈ (st.all (level sep k)).map Node.key
  · have h' := (any_key_iff _ _).mpr h
    unfold level at h' h ⊢
    simp [h', h]
  · have h' : (st.all (level sep k)).any (fun n => decide (n.key = k)) = false := by
      rw [Bool.eq_false_iff]
      exact fun e => h ((any_key_iff _ _).mp e)
    unfold level at h' h ⊢
    simp only [h', Bool.not_false, if_true, setLevel]
    rw [if_neg h]

theorem visit_max (tl : LeaseLookup) (sep key : Str) (kv : KeyValue) (k : Str) (st : Levels) :
    (visit tl sep key kv k st).max = if level sep k > st.max then level sep k else st.max := by
  unfold visit level
  simp only
  split <;> rfl

theorem visit_all_subset (tl : LeaseLookup) (sep key : Str) (kv : KeyValue) (k : Str)
    (st : Levels) (l : Nat) (n : Node) (h : n ∈ st.all l) :
    n ∈ (visit tl sep key kv k st).all l := by
  by_cases hl : l = level sep k
  · subst hl
    rw [visit_all_same]
    split
    · exact h
    · exact List.mem_append_left _ h
  · rw [visit_all_other _ _ _ _ _ _ _ hl]
    exact h

theorem runSteps_concat (tl : LeaseLookup) (sep key : Str) (st : Levels)
    (ps : List (KeyValue × Str)) (p : KeyValue × Str) :
    runSteps tl sep key st (ps ++ [p]) = visit tl sep key p.1 p.2 (runSteps tl sep key st ps) := by
  unfold runSteps
  rw [List.foldl_append]
  rfl

theorem rootLevels_inv (tl : LeaseLookup) (sep key : Str) (presp : Option KeyValue) :
    LevelsInv tl sep key presp [] (rootLevels tl sep key presp) where
  root := by simp [rootLevels, setLevel]
  src := by
    intro l hl n hn
    simp [rootLevels, setLevel, hl] at hn
  compl := by intro p hp; cases hp
  nodup := by
    intro l
    unfold rootLevels setLevel
    simp only
    split <;> simp
  maxge := le_refl _
  high := by
    intro l hl
    have : l ≠ minLevel sep key := by
      intro e; rw [e] at hl; exact absurd hl (lt_irrefl _)
    simp [rootLevels, setLevel, this]
  low := by
    intro l hl
    have : l ≠ minLevel sep key := by
      intro e; rw [e] at hl; exact absurd hl (lt_irrefl _)
    simp [rootLevels, setLevel, this]

theorem visit_inv (tl : LeaseLookup) (sep key : Str) (presp : Option KeyValue)
    (ps : List (KeyValue × Str)) (p : KeyValue × Str) (st : Levels)
    (hp : minLevel sep key < level sep p.2) (inv : LevelsInv tl sep key presp ps st) :
    LevelsInv tl sep key presp (ps ++ [p]) (visit tl sep key p.1 p.2 st) where
  root := by
    rw [visit_all_other _ _ _ _ _ _ _ (Nat.ne_of_lt hp)]
    exact inv.root
  src := by
    intro l hl n hn
    have old : n ∈ st.all l → ∃ ps1 q ps2, ps ++ [p] = ps1 ++ q :: ps2 ∧
        (∀ x ∈ ps1, x.2 ≠ q.2) ∧ n = newNode tl key q.1 q.2 ∧ level sep q.2 = l := by
      intro h
      obtain ⟨ps1, q, ps2, e, h1, h2, h3⟩ := inv.src l hl n h
      exact ⟨ps1, q, ps2 ++ [p], by rw [e]; simp, h1, h2, h3⟩
    by_cases e : l = level sep p.2
    · subst e
      rw [visit_all_same] at hn
      by_cases hex : p.2 ∈ (st.all (level sep p.2)).map Node.key
      · rw [if_pos hex] at hn
        exact old hn
      · rw [if_neg hex] at hn
        rcases List.mem_append.mp hn with h | h
        · exact old h
        · refine ⟨ps, p, [], rfl, ?_, by simpa using h, rfl⟩
          intro x hx e
          have := inv.compl x hx
          rw [e] at this
          exact hex this
    · rw [visit_all_other _ _ _ _ _ _ _ e] at hn
      exact old hn
  compl := by
    intro q hq
    have mono : ∀ l k, k ∈ (st.all l).map Node.key →
        k ∈ ((visit tl sep key p.1 p.2 st).all l).map Node.key := by
      intro l k hk
      obtain ⟨n, hn, rfl⟩ := List.mem_map.mp hk
      exact List.mem_map.mpr ⟨n, visit_all_subset _ _ _ _ _ _ _ _ hn, rfl⟩
    rcases List.mem_append.mp hq with h | h
    · exact mono _ _ (inv.compl q h)
    · have e : q = p := by simpa using h
      subst e
      rw [visit_all_same]
      by_cases hex : q.2 ∈ (st.all (level sep q.2)).map Node.key
      · rw [if_pos hex]; exact hex
      · rw [if_neg hex]
        simp [newNode_key]
  nodup := by
    intro l
    by_cases e : l = level sep p.2
    · subst e
      rw [visit_all_same]
      by_cases hex : p.2 ∈ (st.all (level sep p.2)).map Node.key
      · rw [if_pos hex]; exact inv.nodup _
      · rw [if_neg hex, List.map_append, List.nodup_append]
        refine ⟨inv.nodup _, by simp, ?_⟩
        intro a ha hb
        have hb' : a = p.2 := by simpa [newNode_key] using hb
        exact hex (hb' ▸ ha)
    · rw [visit_all_other _ _ _ _ _ _ _ e]
      exact inv.nodup _
  maxge := by
    rw [visit_max]
    have := inv.maxge
    split <;> omega
  high := by
    intro l hl
    rw [visit_max] at hl
    have hne : l ≠ level sep p.2 := by
      intro e
      rw [e] at hl
      split at hl <;> omega
    rw [visit_all_other _ _ _ _ _ _ _ hne]
    apply inv.high
    split at hl <;> omega
  low := by
    intro l hl
    rw [visit_all_other _ _ _ _ _ _ _ (by omega)]
    exact inv.low l hl

/-- The invariant of the levels after any visits of paths below the query key. -/
theorem runSteps_inv (tl : LeaseLookup) (sep key : Str) (presp : Option KeyValue)
    (ps : List (KeyValue × Str)) (hp : ∀ p ∈ ps, minLevel sep key < level sep p.2) :
    LevelsInv tl sep key presp ps (runSteps tl sep key (rootLevels tl sep key presp) ps) := by
  induction ps using List.reverseRecOn with
  | nil => exact rootLevels_inv tl sep key presp
  | append_singleton ps p ih =>
    rw [runSteps_concat]
    exact visit_inv tl sep key presp ps p _ (hp p (by simp))
      (ih (fun q hq => hp q (List.mem_append_left _ hq)))

/-! ## The visits made for a list of records -/

theorem mem_pathsBelow (sep key s k : Str) :
    k ∈ pathsBelow sep key s ↔
      ∃ j, minLevel sep key < j ∧ j ≤ level sep s ∧ k = pathAt sep s j := by
  unfold pathsBelow
  simp only [List.mem_map, List.mem_range'_1]
  constructor
  · rintro ⟨i, ⟨h1, h2⟩, rfl⟩
    exact ⟨i + 1, by omega, by omega, rfl⟩
  · rintro ⟨j, h1, h2, rfl⟩
    refine ⟨j - 1, ⟨by omega, by omega⟩, ?_⟩
    congr 1
    omega

theorem mem_steps (sep key : Str) (kvs : List KeyValue) (p : KeyValue × Str) :
    p ∈ steps sep key kvs ↔
      p.1 ∈ kvs ∧ p.1.key ≠ sep ∧
        ∃ j, minLevel sep key < j ∧ j ≤ level sep p.1.key ∧ p.2 = pathAt sep p.1.key j := by
  unfold steps
  simp only [List.mem_flatMap]
  constructor
  · rintro ⟨kv, hkv, hp⟩
    by_cases hs : kv.key = sep
    · simp [hs] at hp
    · simp only [hs, if_false, List.mem_map] at hp
      obtain ⟨k, hk, rfl⟩ := hp
      exact ⟨hkv, hs, (mem_pathsBelow _ _ _ _).mp hk⟩
  · rintro ⟨hkv, hs, hj⟩
    refine ⟨p.1, hkv, ?_⟩
    simp only [hs, if_false, List.mem_map]
    exact ⟨p.2, (mem_pathsBelow _ _ _ _).mpr hj, rfl⟩

theorem minLevel_pos (c : Char) (key : Str) : 0 < minLevel [c] key := by
  unfold minLevel
  split
  · exact Nat.one_pos
  · exact split_length_pos c key

theorem level_record (c : Char) (key k : Str) (hp : prefixKey [c] key <+: k) :
    minLevel [c] key < level [c] k := by
  obtain ⟨stem, rest, hk, hm, _, _⟩ := record_decomp c key k hp
  rw [hk, level_append, hm]
  have := level_pos c rest
  omega

theorem steps_level (c : Char) (key : Str) (kvs : List KeyValue) (p : KeyValue × Str)
    (hp : p ∈ steps [c] key kvs) :
    minLevel [c] key < level [c] p.2 ∧ level [c] p.2 ≤ level [c] p.1.key ∧
      p.2 = pathAt [c] p.1.key (level [c] p.2) := by
  obtain ⟨_, _, j, h1, h2, h3⟩ := (mem_steps _ _ _ _).mp hp
  have hl : level [c] p.2 = j := by
    rw [h3]
    exact level_pathAt c _ j (by omega) h2
  rw [hl]
  exact ⟨h1, h2, h3⟩

theorem self_mem_steps (c : Char) (key : Str) (kvs : List KeyValue) (kv : KeyValue)
    (hkv : kv ∈ kvs) (hs : kv.key ≠ [c]) (hp : prefixKey [c] key <+: kv.key) :
    (kv, kv.key) ∈ steps [c] key kvs :=
  (mem_steps _ _ _ _).mpr
    ⟨hkv, hs, level [c] kv.key, level_record c key kv.key hp, le_refl _, (pathAt_level c _).symm⟩

theorem parent_mem_steps (c : Char) (key : Str) (kvs : List KeyValue) (p : KeyValue × Str)
    (hp : p ∈ steps [c] key kvs) (hl : minLevel [c] key + 1 < level [c] p.2) :
    (p.1, parentPath [c] p.2) ∈ steps [c] key kvs := by
  obtain ⟨hkv, hs, j, h1, h2, h3⟩ := (mem_steps _ _ _ _).mp hp
  have hlev : level [c] p.2 = j := by
    rw [h3]
    exact level_pathAt c _ j (by omega) h2
  refine (mem_steps _ _ _ _).mpr ⟨hkv, hs, j - 1, by omega, ?_, ?_⟩
  · show j - 1 ≤ level [c] p.1.key
    omega
  · show parentPath [c] p.2 = pathAt [c] p.1.key (j - 1)
    have e : j = (j - 1) + 1 := by omega
    rw [h3]
    nth_rewrite 1 [e]
    exact parentPath_pathAt c _ (j - 1) (by omega) (by omega)

theorem steps_prefix (c : Char) (key : Str) (kvs : List KeyValue) (p : KeyValue × Str)
    (hne : key ≠ [c]) (hpre : ∀ kv ∈ kvs, prefixKey [c] key <+: kv.key)
    (hp : p ∈ steps [c] key kvs) : (key ++ [c]) <+: p.2 := by
  obtain ⟨hkv, _, j, h1, h2, h3⟩ := (mem_steps _ _ _ _).mp hp
  obtain ⟨stem, rest, hk, hm, _, hnon⟩ := record_decomp c key p.1.key (hpre _ hkv)
  have hs := hnon hne
  subst hs
  have e : j = level [c] stem + (j - level [c] stem) := by omega
  rw [h3, hk, e, pathAt_append_gt c stem rest _ (by omega)]
  exact ⟨pathAt [c] rest (j - level [c] stem), by simp⟩

theorem steps_path_prefix (c : Char) (key : Str) (kvs : List KeyValue) (p : KeyValue × Str)
    (hp : p ∈ steps [c] key kvs) : p.2 <+: p.1.key := by
  obtain ⟨_, _, j, _, _, h3⟩ := (mem_steps _ _ _ _).mp hp
  rw [h3]
  exact pathAt_prefix c _ j

/-- The visits come record after record. -/
theorem steps_pairwise (sep key : Str) (R : KeyValue → KeyValue → Prop) (kvs : List KeyValue)
    (h : kvs.Pairwise R) :
    (steps sep key kvs).Pairwise (fun x y => x.1 = y.1 ∨ R x.1 y.1) := by
  unfold steps
  rw [List.pairwise_flatMap]
  constructor
  · intro kv _
    split
    · exact List.Pairwise.nil
    · apply List.Pairwise.imp_of_mem (R := fun _ _ => True)
      · intro a b ha hb _
        obtain ⟨_, _, rfl⟩ := List.mem_map.mp ha
        obtain ⟨_, _, rfl⟩ := List.mem_map.mp hb
        exact Or.inl rfl
      · exact List.pairwise_of_forall (fun _ _ => trivial)
  · apply h.imp
    intro a b hab x hx y hy
    have hx1 : x.1 = a := by
      split at hx
      · cases hx
      · obtain ⟨_, _, rfl⟩ := List.mem_map.mp hx; rfl
    have hy1 : y.1 = b := by
      split at hy
      · cases hy
      · obtain ⟨_, _, rfl⟩ := List.mem_map.mp hy; rfl
    rw [hx1, hy1]
    exact Or.inr hab

/-- In a list of records sorted by key without a repeated key, the first visit
of the key of a record is made for that record. -/
theorem first_visit_own (c : Char) (key : Str) (kvs : List KeyValue)
    (hpre : ∀ kv ∈ kvs, prefixKey [c] key <+: kv.key)
    (hsorted : kvs.Pairwise (fun a b => strLt b.key a.key = false))
    (hdistinct : kvs.Pairwise (fun a b => a.key ≠ b.key))
    (r : KeyValue) (hr : r ∈ kvs) (hs : r.key ≠ [c])
    (s1 s2 : List (KeyValue × Str)) (q : KeyValue × Str)
    (hsteps : steps [c] key kvs = s1 ++ q :: s2) (hfirst : ∀ x ∈ s1, x.2 ≠ q.2)
    (hq : q.2 = r.key) : q.1 = r := by
  have hmem := self_mem_steps c key kvs r hr hs (hpre r hr)
  have hqmem : q ∈ steps [c] key kvs := by rw [hsteps]; simp
  have hpw := steps_pairwise [c] key
    (fun a b => strLt b.key a.key = false ∧ a.key ≠ b.key) kvs
    (by
      have := hsorted.and hdistinct
      exact this)
  rw [hsteps] at hmem hpw
  rcases List.mem_append.mp hmem with h | h
  · exact absurd hq.symm (hfirst _ h)
  · rcases List.mem_cons.mp h with h | h
    · rw [← h]
    · have hR := (List.pairwise_cons.mp (List.pairwise_append.mp hpw).2.1).1 _ h
      rcases hR with e | ⟨e1, e2⟩
      · exact e
      · exfalso
        have hpref : r.key <+: q.1.key := by
          rw [← hq]
          exact steps_path_prefix c key kvs q hqmem
        have := strLt_of_prefix_ne _ _ hpref (fun e => e2 e.symm)
        simp only at e1
        rw [this] at e1
        exact Bool.noConfusion e1

/-- For records sorted by key that hold no character below the separator behind
the prefix of the range query, paths of one level are visited in ascending
order. -/
theorem steps_sorted (c : Char) (key : Str) (kvs : List KeyValue)
    (hsorted : kvs.Pairwise (fun a b => strLt b.key a.key = false))
    (hpre : ∀ kv ∈ kvs, prefixKey [c] key <+: kv.key)
    (hge : ∀ kv ∈ kvs, ∀ x ∈ kv.key.drop (prefixKey [c] key).length, ¬ x < c) :
    (steps [c] key kvs).Pairwise
      (fun x y => level [c] x.2 = level [c] y.2 → x.2 = y.2 ∨ strLt x.2 y.2 = true) := by
  have hpw := steps_pairwise [c] key (fun a b => strLt b.key a.key = false) kvs hsorted
  apply List.Pairwise.imp_of_mem _ hpw
  intro x y hx hy hR hl
  obtain ⟨h1, h2, h3⟩ := steps_level c key kvs x hx
  obtain ⟨h1', h2', h3'⟩ := steps_level c key kvs y hy
  rw [h3, h3', hl]
  rcases hR with e | e
  · rw [e]; exact Or.inl rfl
  · rcases strLt_total _ _ e with e' | e'
    · rw [e']; exact Or.inl rfl
    · have hxm := ((mem_steps _ _ _ _).mp hx).1
      have hym := ((mem_steps _ _ _ _).mp hy).1
      obtain ⟨t, ht⟩ := hpre x.1 hxm
      obtain ⟨t', ht'⟩ := hpre y.1 hym
      have hget := hge x.1 hxm
      rw [← ht, List.drop_left] at hget
      rw [← ht, ← ht'] at e' ⊢
      exact pathAt_mono_append c _ t t' _ hget e'

/-! ## The parent-child mapping in closed form -/

theorem attach_entry (pa a : Node) : (pa.attach a).entry = pa.entry := by
  cases pa; rfl

theorem attach_key (pa a : Node) : (pa.attach a).key = pa.key := by
  cases pa; rfl

theorem attach_nodes (pa a : Node) : (pa.attach a).nodes = pa.nodes ++ [a] := by
  cases pa; rfl

theorem attach_dir (pa a : Node) : (pa.attach a).dir = true := by
  cases pa; rfl

theorem adopt_nil (pa : Node) : adopt pa [] = pa := rfl

theorem adopt_cons (pa a : Node) (cs : List Node) :
    adopt pa (a :: cs) = adopt (pa.attach a) cs := rfl

theorem adopt_entry : ∀ (cs : List Node) (pa : Node), (adopt pa cs).entry = pa.entry := by
  intro cs
  induction cs with
  | nil => intro pa; rfl
  | cons a cs ih => intro pa; rw [adopt_cons, ih, attach_entry]

theorem entry_key (n : Node) : n.entry.1 = n.key := rfl

theorem adopt_key (cs : List Node) (pa : Node) : (adopt pa cs).key = pa.key := by
  rw [← entry_key, adopt_entry]; rfl

theorem adopt_nodes : ∀ (cs : List Node) (pa : Node), (adopt pa cs).nodes = pa.nodes ++ cs := by
  intro cs
  induction cs with
  | nil => intro pa; simp [adopt_nil]
  | cons a cs ih => intro pa; rw [adopt_cons, ih, attach_nodes]; simp

theorem adopt_dir : ∀ (cs : List Node) (pa : Node),
    (adopt pa cs).dir = (pa.dir || !cs.isEmpty) := by
  intro cs
  induction cs with
  | nil => intro pa; simp [adopt_nil]
  | cons a cs ih => intro pa; rw [adopt_cons, ih, attach_dir]; simp

theorem linkOne_eq (sep : Str) (i : Nat) (a pa : Node) :
    linkOne sep i a pa = if linkedKey sep i a.key pa.key then pa.attach a else pa := by
  unfold linkOne linkedKey
  by_cases h : i = 2
  · simp [h]
  · simp [h]

theorem linkOne_key (sep : Str) (i : Nat) (a pa : Node) : (linkOne sep i a pa).key = pa.key := by
  rw [linkOne_eq]
  split
  · exact attach_key pa a
  · rfl

theorem setLevel_setLevel (all : Nat → List Node) (l : Nat) (x y : List Node) :
    setLevel (setLevel all l x) l y = setLevel all l y := by
  funext j
  unfold setLevel
  split <;> rfl

theorem foldl_linkOne (sep : Str) (i : Nat) : ∀ (L : List Node) (acc : Nat → List Node),
    L.foldl (fun acc a => setLevel acc (i - 1) ((acc (i - 1)).map (linkOne sep i a))) acc =
      setLevel acc (i - 1)
        ((acc (i - 1)).map (fun pa =>
          adopt pa (L.filter (fun a => linkedKey sep i a.key pa.key)))) := by
  intro L
  induction L with
  | nil =>
    intro acc
    funext j
    simp only [List.foldl_nil, setLevel, List.filter_nil, adopt_nil, List.map_id']
    split
    · next h => rw [h]
    · rfl
  | cons a L ih =>
    intro acc
    rw [List.foldl_cons, ih, setLevel_setLevel]
    simp only [setLevel, if_true, List.map_map]
    apply congrArg (setLevel acc (i - 1))
    apply List.map_congr_left
    intro pa _
    simp only [Function.comp, linkOne_key]
    rw [linkOne_eq, List.filter_cons]
    split <;> rfl

/-- One level of the parent-child mapping: every node of level `i - 1` gets the
nodes of level `i` that pass the test, in their order. -/
theorem linkLevel_eq (sep : Str) (i : Nat) (all : Nat → List Node) :
    linkLevel sep i all =
      setLevel all (i - 1)
        ((all (i - 1)).map (fun pa =>
          adopt pa ((all i).filter (fun a => linkedKey sep i a.key pa.key)))) :=
  foldl_linkOne sep i (all i) all

theorem linkedLevel_setLevel (sep : Str) (all : Nat → List Node) (top : Nat) :
    ∀ (d l : Nat), l + d = top →
      linkedLevel sep (setLevel all top (linkedLevel sep all 1 top)) d l =
        linkedLevel sep all (d + 1) l := by
  intro d
  induction d with
  | zero =>
    intro l hl
    have : l = top := by omega
    subst this
    simp [linkedLevel, setLevel]
  | succ d ih =>
    intro l hl
    have hne : l ≠ top := by omega
    rw [linkedLevel, ih (l + 1) (by omega)]
    conv_rhs => rw [linkedLevel]
    simp only [setLevel, hne, if_false]

/-- The whole parent-child mapping, read at the level of the query key. -/
theorem linkLoop_eq (sep : Str) (m : Nat) : ∀ (n : Nat) (all : Nat → List Node),
    linkLoop sep m n all m = linkedLevel sep all n m := by
  intro n
  induction n with
  | zero => intro all; rfl
  | succ n ih =>
    intro all
    rw [linkLoop, ih, linkLevel_eq]
    have e : m + n + 1 - 1 = m + n := by omega
    rw [e]
    have := linkedLevel_setLevel sep all (m + n) n m rfl
    rw [← this]
    congr 2

theorem getPath_eq (tl : LeaseLookup) (sep key : Str) (presp : Option KeyValue)
    (kvs : List KeyValue) :
    getPath tl sep key presp kvs =
      (linkedLevel sep (buildLevels tl sep key presp kvs).all
        ((buildLevels tl sep key presp kvs).max - minLevel sep key) (minLevel sep key)).head? := by
  unfold getPath
  simp only [linkLoop_eq]

/-! ## The nodes of a tree -/

theorem subnodes_eq (n : Node) : n.subnodes = n :: subnodesList n.nodes := by
  cases n; rfl

theorem subnodesList_eq : ∀ (ns : List Node), subnodesList ns = ns.flatMap Node.subnodes := by
  intro ns
  induction ns with
  | nil => rfl
  | cons n ns ih => rw [subnodesList, ih, List.flatMap_cons]

theorem subnodes_of_nodes_nil (n : Node) (h : n.nodes = []) : n.subnodes = [n] := by
  rw [subnodes_eq, h]; rfl

theorem mem_linkedLevel (sep : Str) (all : Nat → List Node) (d l : Nat) (n : Node)
    (h : n ∈ linkedLevel sep all d l) :
    ∃ pa ∈ all l, ∃ cs, n = adopt pa cs ∧
      ((d = 0 ∧ cs = []) ∨ ∃ d', d = d' + 1 ∧
        cs = (linkedLevel sep all d' (l + 1)).filter
          (fun a => linkedKey sep (l + 1) a.key pa.key)) := by
  cases d with
  | zero => exact ⟨n, h, [], rfl, Or.inl ⟨rfl, rfl⟩⟩
  | succ d =>
    rw [linkedLevel] at h
    obtain ⟨pa, hpa, rfl⟩ := List.mem_map.mp h
    exact ⟨pa, hpa, _, rfl, Or.inr ⟨d, rfl, rfl⟩⟩

/-- A property that holds of every node of every linked level from `L` on holds
of every node of the trees below them. -/
theorem linkedLevel_forall (sep : Str) (all : Nat → List Node) (Q : Node → Prop) (L : Nat)
    (hfresh : ∀ l, ∀ n ∈ all l, n.nodes = [])
    (hQ : ∀ d l, L ≤ l → ∀ n ∈ linkedLevel sep all d l, Q n) :
    ∀ d l, L ≤ l → ∀ n ∈ linkedLevel sep all d l, ∀ x ∈ n.subnodes, Q x := by
  intro d
  induction d with
  | zero =>
    intro l hl n hn x hx
    rw [subnodes_of_nodes_nil n (hfresh l n hn)] at hx
    have : x = n := by simpa using hx
    rw [this]
    exact hQ 0 l hl n hn
  | succ d ih =>
    intro l hl n hn x hx
    have hn' := hn
    rw [linkedLevel] at hn'
    obtain ⟨pa, hpa, rfl⟩ := List.mem_map.mp hn'
    rw [subnodes_eq, adopt_nodes, hfresh l pa hpa, List.nil_append, subnodesList_eq] at hx
    rcases List.mem_cons.mp hx with h | h
    · rw [h]; exact hQ (d + 1) l hl _ hn
    · obtain ⟨ch, hch, hxch⟩ := List.mem_flatMap.mp h
      exact ih (l + 1) (by omega) ch (List.mem_filter.mp hch).1 x hxch

/-! ## What holds for every input -/

theorem rootNode_nodes (tl : LeaseLookup) (key : Str) (presp : Option KeyValue) :
    (rootNode tl key presp).nodes = [] := by
  unfold rootNode; split <;> rfl

theorem rootNode_dir (tl : LeaseLookup) (key : Str) (presp : Option KeyValue) :
    (rootNode tl key presp).dir = false := by
  unfold rootNode; split <;> rfl

theorem rootNode_key (tl : LeaseLookup) (key : Str) (presp : Option KeyValue) :
    (rootNode tl key presp).key = key := by
  unfold rootNode; split <;> rfl

theorem fresh_rootLevels (tl : LeaseLookup) (sep key : Str) (presp : Option KeyValue) :
    Fresh tl sep key presp (rootLevels tl sep key presp) := by
  constructor
  · exact ⟨[], by simp [rootLevels, setLevel]⟩
  · intro l n hn
    unfold rootLevels setLevel at hn
    simp only at hn
    split at hn
    · have : n = rootNode tl key presp := by simpa using hn
      rw [this]
      exact ⟨rootNode_nodes _ _ _, rootNode_dir _ _ _⟩
    · cases hn

theorem fresh_visit (tl : LeaseLookup) (sep key : Str) (presp : Option KeyValue)
    (kv : KeyValue) (k : Str) (st : Levels) (h : Fresh tl sep key presp st) :
    Fresh tl sep key presp (visit tl sep key kv k st) := by
  obtain ⟨⟨tail, ht⟩, hf⟩ := h
  constructor
  · by_cases e : minLevel sep key = level sep k
    · rw [e, visit_all_same]
      rw [e] at ht
      split
      · exact ⟨tail, ht⟩
      · exact ⟨tail ++ [newNode tl key kv k], by rw [ht]; rfl⟩
    · rw [visit_all_other _ _ _ _ _ _ _ e]
      exact ⟨tail, ht⟩
  · intro l n hn
    by_cases e : l = level sep k
    · subst e
      rw [visit_all_same] at hn
      split at hn
      · exact hf _ n hn
      · rcases List.mem_append.mp hn with h' | h'
        · exact hf _ n h'
        · have : n = newNode tl key kv k := by simpa using h'
          rw [this]
          exact ⟨newNode_nodes _ _ _ _, newNode_dir _ _ _ _⟩
    · rw [visit_all_other _ _ _ _ _ _ _ e] at hn
      exact hf l n hn

theorem fresh_pathStep (tl : LeaseLookup) (sep key : Str) (presp : Option KeyValue)
    (kv : KeyValue) (keys : List Str) (s : Bool × Levels) (i : Nat)
    (h : Fresh tl sep key presp s.2) :
    Fresh tl sep key presp (pathStep tl sep key kv keys s i).2 := by
  unfold pathStep
  simp only
  split
  · exact h
  · split
    · exact fresh_visit _ _ _ _ _ _ _ h
    · split
      · exact h
      · split
        · exact fresh_visit _ _ _ _ _ _ _ h
        · exact h

theorem fresh_addRecord (tl : LeaseLookup) (sep key : Str) (presp : Option KeyValue)
    (kv : KeyValue) (st : Levels) (h : Fresh tl sep key presp st) :
    Fresh tl sep key presp (addRecord tl sep key st kv) := by
  unfold addRecord
  split
  · exact h
  · have : ∀ (l : List Nat) (s : Bool × Levels), Fresh tl sep key presp s.2 →
        Fresh tl sep key presp
          (l.foldl (pathStep tl sep key kv (split kv.key sep)) s).2 := by
      intro l
      induction l with
      | nil => intro s hs; exact hs
      | cons i l ih =>
        intro s hs
        rw [List.foldl_cons]
        exact ih _ (fresh_pathStep _ _ _ _ _ _ _ _ hs)
    exact this _ (false, st) h

theorem fresh_buildLevels (tl : LeaseLookup) (sep key : Str) (presp : Option KeyValue)
    (kvs : List KeyValue) : Fresh tl sep key presp (buildLevels tl sep key presp kvs) := by
  have : ∀ (st : Levels), Fresh tl sep key presp st →
      Fresh tl sep key presp (kvs.foldl (addRecord tl sep key) st) := by
    induction kvs with
    | nil => intro st h; exact h
    | cons kv rest ih =>
      intro st h
      rw [List.foldl_cons]
      exact ih _ (fresh_addRecord _ _ _ _ _ _ h)
  exact this _ (fresh_rootLevels tl sep key presp)

/-- The handler `getPath` returns a node for every input: the root with the nodes of the
next level that pass the test. -/
theorem getPath_root (tl : LeaseLookup) (sep key : Str) (presp : Option KeyValue)
    (kvs : List KeyValue) :
    ∃ root, getPath tl sep key presp kvs = some root ∧
      root ∈ linkedLevel sep (buildLevels tl sep key presp kvs).all
        ((buildLevels tl sep key presp kvs).max - minLevel sep key) (minLevel sep key) ∧
      root.entry = (rootNode tl key presp).entry := by
  obtain ⟨⟨tail, ht⟩, _⟩ := fresh_buildLevels tl sep key presp kvs
  rw [getPath_eq]
  cases hd : (buildLevels tl sep key presp kvs).max - minLevel sep key with
  | zero =>
    refine ⟨rootNode tl key presp, ?_, ?_, rfl⟩
    · simp [linkedLevel, ht]
    · simp [linkedLevel, ht]
  | succ d =>
    rw [linkedLevel, ht, List.map_cons]
    exact ⟨_, rfl, List.mem_cons_self _ _, adopt_entry _ _⟩

theorem dir_iff_of_mem_linkedLevel (sep : Str) (all : Nat → List Node)
    (hfresh : ∀ l, ∀ n ∈ all l, n.nodes = [] ∧ n.dir = false) (d l : Nat) (n : Node)
    (hn : n ∈ linkedLevel sep all d l) : n.dir = true ↔ n.nodes ≠ [] := by
  obtain ⟨pa, hpa, cs, rfl, _⟩ := mem_linkedLevel sep all d l n hn
  obtain ⟨h1, h2⟩ := hfresh l pa hpa
  rw [adopt_dir, adopt_nodes, h1, h2]
  cases cs <;> simp

/-! ## Every node is attached exactly once -/

/-- When every element of `X` passes the test of exactly one element of `P`,
sorting `X` by the element of `P` it belongs to rearranges `X`. -/
theorem flatMap_filter_perm {α β : Type} (t : β → α → Bool) : ∀ (P : List β) (X : List α),
    (∀ a ∈ X, ∃ p ∈ P, t p a = true) →
    P.Pairwise (fun p q => ∀ a ∈ X, t p a = true → ¬ t q a = true) →
    (P.flatMap (fun p => X.filter (t p))).Perm X := by
  intro P
  induction P with
  | nil =>
    intro X hE _
    cases X with
    | nil => exact List.Perm.refl _
    | cons a X =>
      obtain ⟨p, hp, _⟩ := hE a (List.mem_cons_self _ _)
      cases hp
  | cons p P ih =>
    intro X hE hU
    rw [List.flatMap_cons]
    obtain ⟨hp, hP⟩ := List.pairwise_cons.mp hU
    have hcongr : P.flatMap (fun q => X.filter (t q)) =
        P.flatMap (fun q => (X.filter (fun a => !t p a)).filter (t q)) := by
      apply List.flatMap_congr
      intro q hq
      rw [List.filter_filter]
      apply List.filter_congr
      intro a ha
      cases hqa : t q a with
      | false => rfl
      | true =>
        cases hpa : t p a with
        | false => rfl
        | true => exact absurd hqa (hp q hq a ha hpa)
    rw [hcongr]
    have hrec := ih (X.filter (fun a => !t p a))
      (by
        intro a ha
        obtain ⟨haX, hna⟩ := List.mem_filter.mp ha
        obtain ⟨q, hq, hqa⟩ := hE a haX
        rcases List.mem_cons.mp hq with e | e
        · subst e
          rw [hqa] at hna
          exact absurd hna (by decide)
        · exact ⟨q, e, hqa⟩)
      (hP.imp (fun {x y} h a ha => h a (List.mem_filter.mp ha).1))
    exact (List.Perm.append_left _ hrec).trans (List.filter_append_perm _ _)

theorem linkedLevel_key_mem (sep : Str) (all : Nat → List Node) (d l : Nat) (n : Node)
    (hn : n ∈ linkedLevel sep all d l) : n.key ∈ (all l).map Node.key := by
  obtain ⟨pa, hpa, cs, rfl, _⟩ := mem_linkedLevel sep all d l n hn
  rw [adopt_key]
  exact List.mem_map.mpr ⟨pa, hpa, rfl⟩

/-- The nodes of the trees of a linked level are, entry for entry and up to
their order, the nodes of the levels from that one down, when every node
passes the test of exactly one node of the level above. -/
theorem linkedLevel_entries (sep : Str) (all : Nat → List Node) (m : Nat)
    (hfresh : ∀ l, ∀ n ∈ all l, n.nodes = [])
    (hE : ∀ l, m ≤ l → ∀ k ∈ (all (l + 1)).map Node.key,
      ∃ pa ∈ all l, linkedKey sep (l + 1) k pa.key = true)
    (hU : ∀ l, m ≤ l → (all l).Pairwise (fun p q =>
      ∀ k ∈ (all (l + 1)).map Node.key, linkedKey sep (l + 1) k p.key = true →
        ¬ linkedKey sep (l + 1) k q.key = true)) :
    ∀ d l, m ≤ l →
      ((subnodesList (linkedLevel sep all d l)).map Node.entry).Perm
        ((List.range' l (d + 1)).flatMap (fun i => (all i).map Node.entry)) := by
  intro d
  induction d with
  | zero =>
    intro l _
    have h1 : subnodesList (all l) = all l := by
      rw [subnodesList_eq]
      have : all l = (all l).flatMap (fun x => [x]) := by simp
      conv_rhs => rw [this]
      apply List.flatMap_congr
      intro n hn
      exact subnodes_of_nodes_nil n (hfresh l n hn)
    simp [linkedLevel, h1]
  | succ d ih =>
    intro l hl
    have hX := ih (l + 1) (by omega)
    rw [List.range'_succ, List.flatMap_cons]
    refine List.Perm.trans ?_ (List.Perm.append_left _ hX)
    rw [linkedLevel, subnodesList_eq, List.flatMap_map, List.map_flatMap]
    -- each node of the level, followed by the trees attached to it
    have hstep : ∀ pa ∈ all l,
        List.map Node.entry
          (adopt pa ((linkedLevel sep all d (l + 1)).filter
            (fun a => linkedKey sep (l + 1) a.key pa.key))).subnodes =
        [pa.entry] ++
          ((linkedLevel sep all d (l + 1)).filter
            (fun a => linkedKey sep (l + 1) a.key pa.key)).flatMap
              (fun x => x.subnodes.map Node.entry) := by
      intro pa hpa
      rw [subnodes_eq, adopt_nodes, hfresh l pa hpa, List.nil_append, List.map_cons,
        adopt_entry, subnodesList_eq, List.map_flatMap]
      rfl
    rw [List.flatMap_congr hstep]
    refine List.Perm.trans (List.flatMap_append_perm _ _ _).symm ?_
    have e1 : (all l).flatMap (fun pa => [pa.entry]) = (all l).map Node.entry :=
      (List.map_eq_flatMap _ _).symm
    rw [e1]
    apply List.Perm.append_left
    rw [← List.flatMap_assoc, subnodesList_eq, List.map_flatMap]
    apply List.Perm.flatMap_right
    apply flatMap_filter_perm (fun (pa : Node) (a : Node) => linkedKey sep (l + 1) a.key pa.key)
    · intro a ha
      exact hE l hl a.key (linkedLevel_key_mem sep all d (l + 1) a ha)
    · exact (hU l hl).imp
        (fun {p q} h a ha => h a.key (linkedLevel_key_mem sep all d (l + 1) a ha))

/-! ## The tree of `getPath` for a one-character separator -/

theorem build_inv (tl : LeaseLookup) (c : Char) (key : Str) (presp : Option KeyValue)
    (kvs : List KeyValue) (hkey : key ≠ []) (hpre : ∀ kv ∈ kvs, prefixKey [c] key <+: kv.key) :
    LevelsInv tl [c] key presp (steps [c] key kvs) (buildLevels tl [c] key presp kvs) := by
  rw [buildLevels_eq tl c key presp kvs hkey hpre]
  exact runSteps_inv tl [c] key presp _ (fun p hp => (steps_level c key kvs p hp).1)

theorem node_src (tl : LeaseLookup) (sep key : Str) (presp : Option KeyValue)
    (ps : List (KeyValue × Str)) (st : Levels) (inv : LevelsInv tl sep key presp ps st)
    (l : Nat) (hl : l ≠ minLevel sep key) (n : Node) (hn : n ∈ st.all l) :
    ∃ p ∈ ps, n = newNode tl key p.1 p.2 ∧ n.key = p.2 ∧ level sep p.2 = l := by
  obtain ⟨ps1, p, ps2, e, _, h2, h3⟩ := inv.src l hl n hn
  exact ⟨p, by rw [e]; simp, h2, by rw [h2, newNode_key], h3⟩

theorem hasPrefix_iff (s p : Str) : hasPrefix s p = true ↔ p <+: s :=
  List.isPrefixOf_iff_prefix

theorem linkedKey_parent (c : Char) (i : Nat) (k pk : Str) (hi : i ≠ 2)
    (h : linkedKey [c] i k pk = true) (hl : level [c] k = level [c] pk + 1) :
    parentPath [c] k = pk := by
  unfold linkedKey at h
  simp only [hi, decide_False, Bool.false_or] at h
  exact parentPath_of_prefix c pk k hl ((hasPrefix_iff _ _).mp h)

/-- Every node below the root passes the test of some node of the level above. -/
theorem build_linked_exists (tl : LeaseLookup) (c : Char) (key : Str) (presp : Option KeyValue)
    (kvs : List KeyValue) (hkey : key ≠ []) (hpre : ∀ kv ∈ kvs, prefixKey [c] key <+: kv.key)
    (l : Nat) (hl : minLevel [c] key ≤ l) :
    ∀ k ∈ ((buildLevels tl [c] key presp kvs).all (l + 1)).map Node.key,
      ∃ pa ∈ (buildLevels tl [c] key presp kvs).all l, linkedKey [c] (l + 1) k pa.key = true := by
  have inv := build_inv tl c key presp kvs hkey hpre
  intro k hk
  obtain ⟨n, hn, rfl⟩ := List.mem_map.mp hk
  obtain ⟨p, hp, _, hkey2, hlev⟩ := node_src _ _ _ _ _ _ inv (l + 1) (by omega) n hn
  rw [hkey2]
  by_cases hlm : l = minLevel [c] key
  · subst hlm
    refine ⟨rootNode tl key presp, by rw [inv.root]; simp, ?_⟩
    rw [rootNode_key]
    unfold linkedKey
    by_cases hr : key = [c]
    · simp [minLevel, hr]
    · have := steps_prefix c key kvs p hr hpre hp
      simp [(hasPrefix_iff _ _).mpr this]
  · have hq := parent_mem_steps c key kvs p hp (by omega)
    have hc := inv.compl _ hq
    have hlp := level_parentPath c p.2 (by omega)
    have e : level [c] (parentPath [c] p.2) = l := by omega
    simp only at hc
    rw [e] at hc
    obtain ⟨pa, hpa, hpk⟩ := List.mem_map.mp hc
    refine ⟨pa, hpa, ?_⟩
    unfold linkedKey
    rw [hpk, (hasPrefix_iff _ _).mpr (prefix_of_parentPath c p.2 (by omega))]
    simp

/-- No node below the root passes the test of two nodes of the level above. -/
theorem build_linked_unique (tl : LeaseLookup) (c : Char) (key : Str) (presp : Option KeyValue)
    (kvs : List KeyValue) (hkey : key ≠ []) (hpre : ∀ kv ∈ kvs, prefixKey [c] key <+: kv.key)
    (l : Nat) (hl : minLevel [c] key ≤ l) :
    ((buildLevels tl [c] key presp kvs).all l).Pairwise (fun p q =>
      ∀ k ∈ ((buildLevels tl [c] key presp kvs).all (l + 1)).map Node.key,
        linkedKey [c] (l + 1) k p.key = true → ¬ linkedKey [c] (l + 1) k q.key = true) := by
  have inv := build_inv tl c key presp kvs hkey hpre
  by_cases hlm : l = minLevel [c] key
  · subst hlm
    rw [inv.root]
    exact List.pairwise_singleton _ _
  · have hm := minLevel_pos c key
    have hnd : ((buildLevels tl [c] key presp kvs).all l).Pairwise
        (fun p q => p.key ≠ q.key) := List.pairwise_map.mp (inv.nodup l)
    apply List.Pairwise.imp_of_mem _ hnd
    intro p q hp hq hne k hk h1 h2
    obtain ⟨n, hn, rfl⟩ := List.mem_map.mp hk
    obtain ⟨_, _, _, hn2, hn3⟩ := node_src _ _ _ _ _ _ inv (l + 1) (by omega) n hn
    obtain ⟨_, _, _, hp2, hp3⟩ := node_src _ _ _ _ _ _ inv l hlm p hp
    obtain ⟨_, _, _, hq2, hq3⟩ := node_src _ _ _ _ _ _ inv l hlm q hq
    rw [← hn2] at hn3
    rw [← hp2] at hp3
    rw [← hq2] at hq3
    have e1 := linkedKey_parent c (l + 1) n.key p.key (by omega) h1 (by omega)
    have e2 := linkedKey_parent c (l + 1) n.key q.key (by omega) h2 (by omega)
    exact hne (e1.symm.trans e2)

theorem linkedLevel_keys (sep : Str) (all : Nat → List Node) (d l : Nat) :
    (linkedLevel sep all d l).map Node.key = (all l).map Node.key := by
  cases d with
  | zero => rfl
  | succ d =>
    rw [linkedLevel, List.map_map]
    apply List.map_congr_left
    intro pa _
    exact adopt_key _ _

/-- The tree `getPath` returns, for a query key that is not empty and records
that start with the prefix of the range query: its nodes are, entry for entry,
the root and the nodes of the levels below, each once. -/
theorem tree_entries (tl : LeaseLookup) (c : Char) (key : Str) (presp : Option KeyValue)
    (kvs : List KeyValue) (hkey : key ≠ []) (hpre : ∀ kv ∈ kvs, prefixKey [c] key <+: kv.key) :
    ∃ root, getPath tl [c] key presp kvs = some root ∧
      root ∈ linkedLevel [c] (buildLevels tl [c] key presp kvs).all
        ((buildLevels tl [c] key presp kvs).max - minLevel [c] key) (minLevel [c] key) ∧
      root.entry = (rootNode tl key presp).entry ∧
      (root.subnodes.map Node.entry).Perm
        ((rootNode tl key presp).entry ::
          (List.range' (minLevel [c] key + 1)
            ((buildLevels tl [c] key presp kvs).max - minLevel [c] key)).flatMap
            (fun i => ((buildLevels tl [c] key presp kvs).all i).map Node.entry)) := by
  have inv := build_inv tl c key presp kvs hkey hpre
  obtain ⟨root, hroot, hmem, hentry⟩ := getPath_root tl [c] key presp kvs
  refine ⟨root, hroot, hmem, hentry, ?_⟩
  have hf := (fresh_buildLevels tl [c] key presp kvs).2
  have hperm := linkedLevel_entries [c] (buildLevels tl [c] key presp kvs).all (minLevel [c] key)
    (fun l n hn => (hf l n hn).1)
    (fun l hl => build_linked_exists tl c key presp kvs hkey hpre l hl)
    (fun l hl => build_linked_unique tl c key presp kvs hkey hpre l hl)
    ((buildLevels tl [c] key presp kvs).max - minLevel [c] key) (minLevel [c] key) (le_refl _)
  have hsingle : linkedLevel [c] (buildLevels tl [c] key presp kvs).all
      ((buildLevels tl [c] key presp kvs).max - minLevel [c] key) (minLevel [c] key) = [root] := by
    have hlen : (linkedLevel [c] (buildLevels tl [c] key presp kvs).all
        ((buildLevels tl [c] key presp kvs).max - minLevel [c] key)
        (minLevel [c] key)).length = 1 := by
      have := congrArg List.length (linkedLevel_keys [c] (buildLevels tl [c] key presp kvs).all
        ((buildLevels tl [c] key presp kvs).max - minLevel [c] key) (minLevel [c] key))
      rw [inv.root] at this
      simpa using this
    obtain ⟨x, hx⟩ := List.length_eq_one.mp hlen
    rw [hx] at hmem ⊢
    have : root = x := by simpa using hmem
    rw [this]
  rw [hsingle] at hperm
  have e : subnodesList [root] = root.subnodes := by simp [subnodesList]
  rw [e, List.range'_succ, List.flatMap_cons, inv.root] at hperm
  simpa using hperm

/-! ## The nodes below the root, level by level -/

theorem newNode_value (tl : LeaseLookup) (key : Str) (kv : KeyValue) (k v : Str) :
    (newNode tl key kv k).value = some v ↔ k = kv.key ∧ v = kv.value := by
  unfold newNode
  split
  · next h => simp [Node.value, h, eq_comm]
  · next h => simp [Node.value, h]

theorem newNode_own (tl : LeaseLookup) (key : Str) (kv : KeyValue) (h : key ≠ kv.key) :
    (newNode tl key kv kv.key).entry =
      (kv.key, some kv.value, some 0, some kv.createRevision, some kv.modRevision) := by
  simp [newNode, h, Node.entry, Node.key, Node.value, Node.ttl, Node.createdIndex,
    Node.modifiedIndex]

theorem mem_levels_below (tl : LeaseLookup) (sep key : Str) (presp : Option KeyValue)
    (ps : List (KeyValue × Str)) (st : Levels) (inv : LevelsInv tl sep key presp ps st)
    {β : Type} (f : Node → β) (x : β) :
    x ∈ (List.range' (minLevel sep key + 1) (st.max - minLevel sep key)).flatMap
        (fun i => (st.all i).map f) ↔
      ∃ l, l ≠ minLevel sep key ∧ ∃ n ∈ st.all l, f n = x := by
  simp only [List.mem_flatMap, List.mem_range'_1, List.mem_map]
  constructor
  · rintro ⟨l, ⟨h1, _⟩, n, hn, rfl⟩
    exact ⟨l, by omega, n, hn, rfl⟩
  · rintro ⟨l, hl, n, hn, rfl⟩
    have h1 : ¬ l < minLevel sep key := by
      intro h
      rw [inv.low l h] at hn
      cases hn
    have h2 : ¬ st.max < l := by
      intro h
      rw [inv.high l h] at hn
      cases hn
    have := inv.maxge
    exact ⟨l, ⟨by omega, by omega⟩, n, hn, rfl⟩

/-- Below the root no key occurs twice, whatever the level. -/
theorem levels_below_nodup (tl : LeaseLookup) (c : Char) (key : Str) (presp : Option KeyValue)
    (kvs : List KeyValue) (hkey : key ≠ []) (hpre : ∀ kv ∈ kvs, prefixKey [c] key <+: kv.key) :
    ((List.range' (minLevel [c] key + 1)
      ((buildLevels tl [c] key presp kvs).max - minLevel [c] key)).flatMap
        (fun i => ((buildLevels tl [c] key presp kvs).all i).map Node.key)).Nodup := by
  have inv := build_inv tl c key presp kvs hkey hpre
  rw [List.nodup_flatMap]
  refine ⟨fun i _ => inv.nodup i, ?_⟩
  have hlt := List.pairwise_lt_range' (minLevel [c] key + 1)
    ((buildLevels tl [c] key presp kvs).max - minLevel [c] key)
  apply List.Pairwise.imp_of_mem _ hlt
  intro i j hi hj hij
  simp only [Function.onFun]
  rw [List.disjoint_left]
  intro k hki hkj
  obtain ⟨n, hn, rfl⟩ := List.mem_map.mp hki
  obtain ⟨n', hn', hk'⟩ := List.mem_map.mp hkj
  have hi' := (List.mem_range'_1.mp hi).1
  have hj' := (List.mem_range'_1.mp hj).1
  obtain ⟨_, _, _, h2, h3⟩ := node_src _ _ _ _ _ _ inv i (by omega) n hn
  obtain ⟨_, _, _, h2', h3'⟩ := node_src _ _ _ _ _ _ inv j (by omega) n' hn'
  rw [← h2] at h3
  rw [← h2', hk'] at h3'
  omega

/-- For records sorted by key without a repeated key, the node with the key of
a record is the node built for that record. -/
theorem node_of_record (tl : LeaseLookup) (c : Char) (key : Str) (presp : Option KeyValue)
    (kvs : List KeyValue) (hkey : key ≠ []) (hpre : ∀ kv ∈ kvs, prefixKey [c] key <+: kv.key)
    (hsorted : kvs.Pairwise (fun a b => strLt b.key a.key = false))
    (hdistinct : kvs.Pairwise (fun a b => a.key ≠ b.key))
    (r : KeyValue) (hr : r ∈ kvs) (hs : r.key ≠ [c]) :
    (∃ l, l ≠ minLevel [c] key ∧ ∃ n ∈ (buildLevels tl [c] key presp kvs).all l,
      n.key = r.key) ∧
    ∀ l, l ≠ minLevel [c] key → ∀ n ∈ (buildLevels tl [c] key presp kvs).all l,
      n.key = r.key → n = newNode tl key r r.key := by
  have inv := build_inv tl c key presp kvs hkey hpre
  constructor
  · have hmem := self_mem_steps c key kvs r hr hs (hpre r hr)
    have hc := inv.compl _ hmem
    obtain ⟨n, hn, hk⟩ := List.mem_map.mp hc
    refine ⟨level [c] r.key, ?_, n, hn, hk⟩
    have := level_record c key r.key (hpre r hr)
    omega
  · intro l hl n hn hk
    obtain ⟨s1, q, s2, e, hfirst, hq, _⟩ := inv.src l hl n hn
    have hq2 : q.2 = r.key := by rw [← hk, hq, newNode_key]
    have := first_visit_own c key kvs hpre hsorted hdistinct r hr hs s1 s2 q e hfirst hq2
    rw [hq, hq2, this]

theorem record_key_ne (c : Char) (key k : Str)
    (hp : prefixKey [c] key <+: k) (hs : k ≠ [c]) : key ≠ k := by
  intro e
  subst e
  unfold prefixKey at hp
  split at hp
  · next h => exact hs h
  · have := hp.length_le
    simp at this

/-! ## Further facts on the levels -/

theorem getPath_empty_key (tl : LeaseLookup) (c : Char) (presp : Option KeyValue)
    (kvs : List KeyValue) :
    getPath tl [c] [] presp kvs = some (rootNode tl [] presp) := by
  rw [getPath_eq, buildLevels_empty_key]
  simp [rootLevels, linkedLevel, setLevel]

/-- When paths of one level are visited in ascending order, every level below
the root is in ascending order of its keys. -/
theorem runSteps_sorted (tl : LeaseLookup) (sep key : Str) (presp : Option KeyValue)
    (ps : List (KeyValue × Str)) (hp : ∀ p ∈ ps, minLevel sep key < level sep p.2)
    (hs : ps.Pairwise
      (fun x y => level sep x.2 = level sep y.2 → x.2 = y.2 ∨ strLt x.2 y.2 = true)) :
    ∀ l, l ≠ minLevel sep key →
      (((runSteps tl sep key (rootLevels tl sep key presp) ps).all l).map Node.key).Pairwise
        (fun a b => strLt a b = true) := by
  induction ps using List.reverseRecOn with
  | nil =>
    intro l hl
    simp [runSteps, rootLevels, setLevel, hl]
  | append_singleton ps p ih =>
    intro l hl
    obtain ⟨hs1, _, hs2⟩ := List.pairwise_append.mp hs
    have hp' : ∀ q ∈ ps, minLevel sep key < level sep q.2 :=
      fun q hq => hp q (List.mem_append_left _ hq)
    have ih' := ih hp' hs1 l hl
    have inv := runSteps_inv tl sep key presp ps hp'
    rw [runSteps_concat]
    by_cases e : l = level sep p.2
    · subst e
      rw [visit_all_same]
      split
      · exact ih'
      · next hex =>
        rw [List.map_append, List.pairwise_append]
        refine ⟨ih', by simp, ?_⟩
        intro a ha b hb
        have hb' : b = p.2 := by simpa [newNode_key] using hb
        subst hb'
        obtain ⟨n, hn, rfl⟩ := List.mem_map.mp ha
        obtain ⟨q, hq, _, hk, hlev⟩ := node_src _ _ _ _ _ _ inv _ hl n hn
        rcases hs2 q hq p (by simp) hlev with h | h
        · exfalso
          have hmem : n.key ∈ ((runSteps tl sep key (rootLevels tl sep key presp) ps).all
              (level sep p.2)).map Node.key := List.mem_map.mpr ⟨n, hn, rfl⟩
          rw [hk.trans h] at hmem
          exact hex hmem
        · rw [hk]; exact h
    · rw [visit_all_other _ _ _ _ _ _ _ e]
      exact ih'

theorem pathAt_two (c : Char) (k : Str) (h : [c] <+: k) :
    pathAt [c] k 2 = [c] ++ firstSegment [c] k := by
  obtain ⟨rest, rfl⟩ := h
  rw [List.singleton_append, pathAt_cons_sep]
  simp only [Nat.succ_ne_zero, if_false, List.cons.injEq, true_and]
  unfold firstSegment pathAt
  rw [split_cons]
  simp only [if_true, List.drop_succ_cons, List.drop_zero]
  cases hs : split rest [c] with
  | nil => exact absurd hs (split_ne_nil c rest)
  | cons a t => simp [join]

theorem pathAt_one_of_sep (c : Char) (k : Str) (h : [c] <+: k) : pathAt [c] k 1 = [] := by
  obtain ⟨rest, rfl⟩ := h
  rw [List.singleton_append, pathAt_cons_sep]
  simp

/-- The visited paths are the paths strictly below the query key, provided no
record of a root query starts with two separators. -/
theorem visited_iff_pathBelow (c : Char) (key : Str) (kvs : List KeyValue) (hkey : key ≠ [])
    (hpre : ∀ kv ∈ kvs, prefixKey [c] key <+: kv.key)
    (hroot : key = [c] → ∀ kv ∈ kvs, ¬ [c, c] <+: kv.key) (p : Str) :
    (∃ q ∈ steps [c] key kvs, q.2 = p) ↔ pathBelow [c] key kvs p := by
  constructor
  · rintro ⟨q, hq, rfl⟩
    obtain ⟨hr, hs, j, h1, h2, h3⟩ := (mem_steps _ _ _ _).mp hq
    have hm := minLevel_pos c key
    refine ⟨q.1, hr, j, by omega, h2, h3, ?_⟩
    obtain ⟨stem, rest, hk, hlev, hr1, hr2⟩ := record_decomp c key q.1.key (hpre _ hr)
    have e : j = level [c] stem + (j - level [c] stem) := by omega
    have hp : q.2 = stem ++ c :: pathAt [c] rest (j - level [c] stem) := by
      rw [h3, hk, e, pathAt_append_gt c stem rest _ (by omega)]
      congr 3
      omega
    by_cases hkc : key = [c]
    · have hst := hr1 hkc
      subst hst
      rw [hp]
      refine ⟨by simp [prefixKey, hkc], ?_⟩
      rw [hkc]
      simp only [List.nil_append, ne_eq, List.cons.injEq, true_and]
      have hrest : rest ≠ [] := by
        intro e'
        rw [e'] at hk
        exact hs (by simpa using hk)
      cases rest with
      | nil => exact absurd rfl hrest
      | cons x xs =>
        have hx : x ≠ c := by
          intro e'
          apply hroot hkc q.1 hr
          rw [hk, e']
          exact ⟨xs, by simp⟩
        have hd : j - level [c] ([] : Str) = (j - level [c] ([] : Str) - 1) + 1 := by omega
        rw [hd, pathAt_cons_other c x xs _ hx]
        simp
    · have hst := hr2 hkc
      subst hst
      rw [hp]
      refine ⟨by simp [prefixKey, hkc], ?_⟩
      intro e'
      have := congrArg List.length e'
      simp at this
  · rintro ⟨r, hr, j, h1, h2, h3, h4, h5⟩
    obtain ⟨stem, rest, hk, hlev, hr1, hr2⟩ := record_decomp c key r.key (hpre _ hr)
    have hj : minLevel [c] key < j := by
      by_contra hcon
      have hle : j ≤ level [c] stem := by omega
      have hp : p = pathAt [c] stem j := by rw [h3, hk, pathAt_append_le c stem rest j hle]
      have hpre' := pathAt_prefix c stem j
      rw [← hp] at hpre'
      by_cases hkc : key = [c]
      · rw [hr1 hkc] at hpre'
        have : p = [] := List.prefix_nil.mp hpre'
        rw [this] at h4
        simp [prefixKey, hkc] at h4
      · rw [hr2 hkc] at hpre'
        have l1 := h4.length_le
        have l2 := hpre'.length_le
        unfold prefixKey at l1
        rw [if_neg hkc, List.length_append] at l1
        simp only [List.length_singleton] at l1
        omega
    have hs : r.key ≠ [c] := by
      intro e'
      by_cases hkc : key = [c]
      · have hl2 : level [c] r.key = 2 := by rw [e', level_sep]
        have hm1 : minLevel [c] key = 1 := by simp [minLevel, hkc]
        have hj2 : j = 2 := by omega
        apply h5
        rw [h3, hj2, ← hl2, pathAt_level, e', hkc]
      · have l1 := (hpre r hr).length_le
        rw [e'] at l1
        unfold prefixKey at l1
        rw [if_neg hkc, List.length_append] at l1
        simp only [List.length_singleton] at l1
        exact hkey (List.length_eq_zero.mp (by omega))
    exact ⟨(r, p), (mem_steps _ _ _ _).mpr ⟨hr, hs, j, hj, h2, h3⟩, rfl⟩

theorem mem_levels_iff_visited (tl : LeaseLookup) (c : Char) (key : Str)
    (presp : Option KeyValue) (kvs : List KeyValue) (hkey : key ≠ [])
    (hpre : ∀ kv ∈ kvs, prefixKey [c] key <+: kv.key) (p : Str) :
    (∃ l, l ≠ minLevel [c] key ∧ ∃ n ∈ (buildLevels tl [c] key presp kvs).all l, n.key = p) ↔
      ∃ q ∈ steps [c] key kvs, q.2 = p := by
  have inv := build_inv tl c key presp kvs hkey hpre
  constructor
  · rintro ⟨l, hl, n, hn, rfl⟩
    obtain ⟨q, hq, _, hk, _⟩ := node_src _ _ _ _ _ _ inv l hl n hn
    exact ⟨q, hq, hk.symm⟩
  · rintro ⟨q, hq, rfl⟩
    obtain ⟨n, hn, hk⟩ := List.mem_map.mp (inv.compl q hq)
    have := (steps_level c key kvs q hq).1
    exact ⟨level [c] q.2, by omega, n, hn, hk⟩

/-! ## Directory inference -/

/-- C7: in the tree `getPath` returns, for every input, every node (the root
included) is marked as a directory exactly when its list of children is not
empty. -/
theorem getPath_dir_iff_children (timeToLive : LeaseLookup) (separator key : Str)
    (presp : Option KeyValue) (resp : List KeyValue) :
    ∃ root, getPath timeToLive separator key presp resp = some root ∧
      ∀ n ∈ root.subnodes, (n.dir = true ↔ n.nodes ≠ []) := by
  obtain ⟨root, hroot, hmem, _⟩ := getPath_root timeToLive separator key presp resp
  have hf := (fresh_buildLevels timeToLive separator key presp resp).2
  refine ⟨root, hroot, ?_⟩
  exact linkedLevel_forall separator _ (fun n => n.dir = true ↔ n.nodes ≠ []) 0
    (fun l n hn => (hf l n hn).1)
    (fun d l _ n hn => dir_iff_of_mem_linkedLevel separator _ hf d l n hn)
    _ _ (Nat.zero_le _) root hmem

/-- C7, witness: the query key `/x` with the parent record `/x` of value `v`
and no descendant returns the root with the value `v`, not a directory and
without children. -/
theorem getPath_dir_iff_children_witness :
    (∃ root, getPath (fun _ => .error []) ['/'] "/x".toList
        (some ⟨"/x".toList, "v".toList, 0, 1, 1⟩) [] = some root ∧
      ∀ n ∈ root.subnodes, (n.dir = true ↔ n.nodes ≠ [])) ∧
    (getPath (fun _ => .error []) ['/'] "/x".toList
        (some ⟨"/x".toList, "v".toList, 0, 1, 1⟩) []).map
      (fun root => (root.key, root.value, root.dir, root.nodes.map Node.key)) =
      some ("/x".toList, some "v".toList, false, []) :=
  ⟨getPath_dir_iff_children (fun _ => .error []) ['/'] "/x".toList
    (some ⟨"/x".toList, "v".toList, 0, 1, 1⟩) [], by decide⟩

/-! ## Round trip -/

/-- C1: for a one-character separator, a query key that is not empty, no parent
record and descendant records sorted ascending by key, with pairwise distinct
keys that start with the prefix of the range query and differ from the
separator, the pairs of key and value of the nodes of the returned tree that
hold a value are the pairs of key and value of the records, each once. -/
theorem getPath_round_trip (timeToLive : LeaseLookup) (c : Char) (key : Str)
    (resp : List KeyValue) (hkey : key ≠ [])
    (hsorted : resp.Pairwise (fun a b => strLt b.key a.key = false))
    (hdistinct : resp.Pairwise (fun a b => a.key ≠ b.key))
    (hpre : ∀ kv ∈ resp, prefixKey [c] key <+: kv.key)
    (hsep : ∀ kv ∈ resp, kv.key ≠ [c]) :
    ∃ root, getPath timeToLive [c] key none resp = some root ∧
      root.valued.Perm (resp.map (fun r => (r.key, r.value))) := by
  have inv := build_inv timeToLive c key none resp hkey hpre
  obtain ⟨root, hroot, _, _, hperm⟩ := tree_entries timeToLive c key none resp hkey hpre
  refine ⟨root, hroot, ?_⟩
  have hval : root.valued =
      (root.subnodes.map Node.entry).filterMap (fun e => e.2.1.map (fun v => (e.1, v))) := by
    unfold Node.valued
    rw [List.filterMap_map]
    rfl
  rw [hval]
  refine (hperm.filterMap _).trans ?_
  rw [List.filterMap_cons]
  have hnone : Option.map (fun v => ((rootNode timeToLive key none).entry.1, v))
      (rootNode timeToLive key none).entry.2.1 = none := rfl
  rw [hnone]
  simp only
  have hkeys := levels_below_nodup timeToLive c key none resp hkey hpre
  rw [List.perm_ext_iff_of_nodup]
  · rintro ⟨k, v⟩
    rw [List.mem_filterMap]
    constructor
    · rintro ⟨e, he, hev⟩
      obtain ⟨l, hl, n, hn, rfl⟩ := (mem_levels_below _ _ _ _ _ _ inv Node.entry e).mp he
      obtain ⟨p, hp, hnew, hk2, _⟩ := node_src _ _ _ _ _ _ inv l hl n hn
      have hv : n.value = some v ∧ n.key = k := by
        simp only [Node.entry, Option.map_eq_some'] at hev
        obtain ⟨a, h1, h2⟩ := hev
        cases h2
        exact ⟨h1, rfl⟩
      rw [hnew] at hv
      obtain ⟨h1, h2⟩ := (newNode_value _ _ _ _ _).mp hv.1
      refine List.mem_map.mpr ⟨p.1, ((mem_steps _ _ _ _).mp hp).1, ?_⟩
      rw [← hv.2, newNode_key, h1, h2]
    · intro h
      obtain ⟨r, hr, he⟩ := List.mem_map.mp h
      cases he
      obtain ⟨⟨l, hl, n, hn, hk⟩, huniq⟩ := node_of_record timeToLive c key none resp hkey hpre
        hsorted hdistinct r hr (hsep r hr)
      have hnew := huniq l hl n hn hk
      refine ⟨n.entry, (mem_levels_below _ _ _ _ _ _ inv Node.entry _).mpr ⟨l, hl, n, hn, rfl⟩, ?_⟩
      rw [hnew, newNode_own _ _ _ (record_key_ne c key r.key (hpre r hr) (hsep r hr))]
      rfl
  · rw [List.Nodup, List.pairwise_filterMap]
    have : ((List.range' (minLevel [c] key + 1)
        ((buildLevels timeToLive [c] key none resp).max - minLevel [c] key)).flatMap
          (fun i => ((buildLevels timeToLive [c] key none resp).all i).map Node.entry)).Pairwise
        (fun e e' => e.1 ≠ e'.1) := by
      have h2 := hkeys
      have e : (fun i => ((buildLevels timeToLive [c] key none resp).all i).map Node.key) =
          (fun i => (((buildLevels timeToLive [c] key none resp).all i).map Node.entry).map
            (fun e => e.1)) := by
        funext i
        rw [List.map_map]
        rfl
      rw [e, ← List.map_flatMap] at h2
      exact List.pairwise_map.mp h2
    apply this.imp
    intro e e' hne b hb b' hb' hbb
    simp only [Option.mem_def, Option.map_eq_some'] at hb hb'
    obtain ⟨_, _, rfl⟩ := hb
    obtain ⟨_, _, h'⟩ := hb'
    rw [← h'] at hbb
    exact hne (Prod.mk.inj hbb).1
  · rw [List.Nodup, List.pairwise_map]
    apply hdistinct.imp
    intro a b hab e
    exact hab (congrArg Prod.fst e)

/-- C1, witness: the records `/foo/a` and `/foo/a/b` below `/foo`; the first
key is also a path of the second, and its node holds the value `1` and the
child `/foo/a/b`. -/
theorem getPath_round_trip_witness :
    (∃ root, getPath (fun _ => .error []) ['/'] "/foo".toList none
        [⟨"/foo/a".toList, "1".toList, 0, 1, 1⟩, ⟨"/foo/a/b".toList, "2".toList, 0, 2, 2⟩] =
          some root ∧
      root.valued.Perm [("/foo/a".toList, "1".toList), ("/foo/a/b".toList, "2".toList)]) ∧
    (getPath (fun _ => .error []) ['/'] "/foo".toList none
        [⟨"/foo/a".toList, "1".toList, 0, 1, 1⟩, ⟨"/foo/a/b".toList, "2".toList, 0, 2, 2⟩]).map
      (fun root => root.subnodes.map (fun n => (n.key, n.value, n.nodes.map Node.key))) =
      some [("/foo".toList, none, ["/foo/a".toList]),
        ("/foo/a".toList, some "1".toList, ["/foo/a/b".toList]),
        ("/foo/a/b".toList, some "2".toList, [])] :=
  ⟨getPath_round_trip (fun _ => .error []) '/' "/foo".toList
    [⟨"/foo/a".toList, "1".toList, 0, 1, 1⟩, ⟨"/foo/a/b".toList, "2".toList, 0, 2, 2⟩]
    (by decide) (by decide) (by decide) (by decide) (by decide), by decide⟩

/-! ## The nodes of the records -/

/-- C6 (as the code has it): for a one-character separator, a query key that
is not empty and descendant records sorted ascending by key, with pairwise
distinct keys that start with the prefix of the range query, every record `r`
other than the separator has a node with its key in the returned tree, and
every node with that key holds the value and the two revisions of `r`, and the
TTL `0` whatever the lease of `r` and the lease lookup are. -/
theorem getPath_record_node (timeToLive : LeaseLookup) (c : Char) (key : Str)
    (presp : Option KeyValue) (resp : List KeyValue) (hkey : key ≠ [])
    (hsorted : resp.Pairwise (fun a b => strLt b.key a.key = false))
    (hdistinct : resp.Pairwise (fun a b => a.key ≠ b.key))
    (hpre : ∀ kv ∈ resp, prefixKey [c] key <+: kv.key)
    (r : KeyValue) (hr : r ∈ resp) (hs : r.key ≠ [c]) :
    ∃ root, getPath timeToLive [c] key presp resp = some root ∧
      (∃ n ∈ root.subnodes, n.key = r.key) ∧
      ∀ n ∈ root.subnodes, n.key = r.key →
        n.value = some r.value ∧ n.ttl = some 0 ∧
          n.createdIndex = some r.createRevision ∧ n.modifiedIndex = some r.modRevision := by
  have inv := build_inv timeToLive c key presp resp hkey hpre
  obtain ⟨root, hroot, _, _, hperm⟩ := tree_entries timeToLive c key presp resp hkey hpre
  obtain ⟨⟨l, hl, n0, hn0, hk0⟩, huniq⟩ := node_of_record timeToLive c key presp resp hkey hpre
    hsorted hdistinct r hr hs
  have hne := record_key_ne c key r.key (hpre r hr) hs
  refine ⟨root, hroot, ?_, ?_⟩
  · have h1 : n0.entry ∈ root.subnodes.map Node.entry := by
      rw [hperm.mem_iff]
      exact List.mem_cons_of_mem _
        ((mem_levels_below _ _ _ _ _ _ inv Node.entry _).mpr ⟨l, hl, n0, hn0, rfl⟩)
    obtain ⟨n, hn, he⟩ := List.mem_map.mp h1
    refine ⟨n, hn, ?_⟩
    rw [← entry_key, he, entry_key, hk0]
  · intro n hn hk
    have h1 : n.entry ∈ root.subnodes.map Node.entry := List.mem_map.mpr ⟨n, hn, rfl⟩
    rw [hperm.mem_iff] at h1
    rcases List.mem_cons.mp h1 with h | h
    · exfalso
      have := congrArg Prod.fst h
      rw [entry_key, entry_key, rootNode_key, hk] at this
      exact hne this.symm
    · obtain ⟨l', hl', n1, hn1, he⟩ := (mem_levels_below _ _ _ _ _ _ inv Node.entry _).mp h
      have hk1 : n1.key = r.key := by rw [← entry_key, he, entry_key, hk]
      have hnew := huniq l' hl' n1 hn1 hk1
      rw [hnew, newNode_own _ _ _ hne] at he
      simp only [Node.entry, Prod.mk.injEq] at he
      exact ⟨he.2.1.symm, he.2.2.1.symm, he.2.2.2.1.symm, he.2.2.2.2.symm⟩

/-- C6, witness: the record `/foo/a` with the lease 7 below `/foo`, and a store
that reports 30 seconds for every lease. -/
theorem getPath_record_node_witness :
    ∃ root, getPath (fun _ => .ok 30) ['/'] "/foo".toList none
        [⟨"/foo/a".toList, "1".toList, 7, 3, 4⟩] = some root ∧
      (∃ n ∈ root.subnodes, n.key = "/foo/a".toList) ∧
      ∀ n ∈ root.subnodes, n.key = "/foo/a".toList →
        n.value = some "1".toList ∧ n.ttl = some 0 ∧
          n.createdIndex = some 3 ∧ n.modifiedIndex = some 4 :=
  getPath_record_node (fun _ => .ok 30) '/' "/foo".toList none
    [⟨"/foo/a".toList, "1".toList, 7, 3, 4⟩] (by decide) (by decide) (by decide) (by decide)
    ⟨"/foo/a".toList, "1".toList, 7, 3, 4⟩ (by decide) (by decide)

/-- C6, counterexample: for the record `/foo/a` with the lease 7 and a store
that reports 30 seconds for that lease, `getTTL` of the lease is 30 and the
node `/foo/a` of the tree holds the TTL 0. -/
theorem getPath_descendant_ttl :
    getTTL (fun _ => .ok 30) 7 = 30 ∧
    (getPath (fun _ => .ok 30) ['/'] "/foo".toList none
        [⟨"/foo/a".toList, "1".toList, 7, 3, 4⟩]).map
      (fun root => root.subnodes.map (fun n => (n.key, n.ttl))) =
        some [("/foo".toList, none), ("/foo/a".toList, some 0)] := by
  decide

/-! ## One node for every path -/

/-- C3 (as the code has it): for a one-character separator, a query key that
is not empty and descendant records whose keys start with the prefix of the
range query, none of them with two leading separators when the query key is
the separator, the keys of the nodes of the returned tree, taken in preorder,
hold no key twice, and they are the query key (the root) and the paths
strictly below it made of the first segments of a record key. -/
theorem getPath_one_node_per_path (timeToLive : LeaseLookup) (c : Char) (key : Str)
    (presp : Option KeyValue) (resp : List KeyValue) (hkey : key ≠ [])
    (hpre : ∀ kv ∈ resp, prefixKey [c] key <+: kv.key)
    (hroot : key = [c] → ∀ kv ∈ resp, ¬ [c, c] <+: kv.key) :
    ∃ root, getPath timeToLive [c] key presp resp = some root ∧ root.key = key ∧
      (root.subnodes.map Node.key).Nodup ∧
      ∀ p, p ∈ root.subnodes.map Node.key ↔ p = key ∨ pathBelow [c] key resp p := by
  have inv := build_inv timeToLive c key presp resp hkey hpre
  obtain ⟨root, hget, _, hentry, hperm⟩ := tree_entries timeToLive c key presp resp hkey hpre
  have hkeys := (hperm.map (fun e => e.1))
  rw [List.map_map, List.map_cons, List.map_flatMap] at hkeys
  have e1 : (fun (e : Str × Option Str × Option Int × Option Int × Option Int) => e.1) ∘
      Node.entry = Node.key := rfl
  have e2 : (fun i => ((buildLevels timeToLive [c] key presp resp).all i).map Node.key) =
      (fun i => (((buildLevels timeToLive [c] key presp resp).all i).map Node.entry).map
        (fun e => e.1)) := by
    funext i
    rw [List.map_map]
    rfl
  rw [e1, ← e2, entry_key, rootNode_key] at hkeys
  have hmem : ∀ p, p ∈ (List.range' (minLevel [c] key + 1)
      ((buildLevels timeToLive [c] key presp resp).max - minLevel [c] key)).flatMap
        (fun i => ((buildLevels timeToLive [c] key presp resp).all i).map Node.key) ↔
      pathBelow [c] key resp p := by
    intro p
    rw [mem_levels_below _ _ _ _ _ _ inv Node.key p,
      mem_levels_iff_visited timeToLive c key presp resp hkey hpre p,
      visited_iff_pathBelow c key resp hkey hpre hroot p]
  refine ⟨root, hget, ?_, ?_, ?_⟩
  · rw [← entry_key, hentry, entry_key, rootNode_key]
  · rw [hkeys.nodup_iff, List.nodup_cons]
    refine ⟨?_, levels_below_nodup timeToLive c key presp resp hkey hpre⟩
    intro h
    obtain ⟨_, _, _, _, _, _, _, hne⟩ := (hmem key).mp h
    exact hne rfl
  · intro p
    rw [hkeys.mem_iff, List.mem_cons, hmem]

/-- C3, witness: the records `/foo/a/x` and `/foo/a/y` below `/foo` share the
path `/foo/a`. -/
theorem getPath_one_node_per_path_witness :
    ∃ root, getPath (fun _ => .error []) ['/'] "/foo".toList none
        [⟨"/foo/a/x".toList, "1".toList, 0, 1, 1⟩, ⟨"/foo/a/y".toList, "2".toList, 0, 2, 2⟩] =
          some root ∧ root.key = "/foo".toList ∧
      (root.subnodes.map Node.key).Nodup ∧
      ∀ p, p ∈ root.subnodes.map Node.key ↔ p = "/foo".toList ∨
        pathBelow ['/'] "/foo".toList
          [⟨"/foo/a/x".toList, "1".toList, 0, 1, 1⟩, ⟨"/foo/a/y".toList, "2".toList, 0, 2, 2⟩] p :=
  getPath_one_node_per_path (fun _ => .error []) '/' "/foo".toList none
    [⟨"/foo/a/x".toList, "1".toList, 0, 1, 1⟩, ⟨"/foo/a/y".toList, "2".toList, 0, 2, 2⟩]
    (by decide) (by decide) (by decide)

/-- C3, counterexample: for the query key `/` and the record `//a` the tree has
the nodes `/`, `/` and `//a`: the key of the root is also the key of its child.
And for the empty query key and the record `/a` the tree is the root alone,
although `/a` is a path below the query key. -/
theorem getPath_root_key_twice :
    ((getPath (fun _ => .error []) ['/'] "/".toList none
        [⟨"//a".toList, "1".toList, 0, 1, 1⟩]).map (fun root => root.subnodes.map Node.key) =
      some ["/".toList, "/".toList, "//a".toList] ∧
    ¬ (["/".toList, "/".toList, "//a".toList] : List Str).Nodup) ∧
    ((getPath (fun _ => .error []) ['/'] [] none
        [⟨"/a".toList, "1".toList, 0, 1, 1⟩]).map (fun root => root.subnodes.map Node.key) =
      some [[]] ∧
    pathBelow ['/'] [] [⟨"/a".toList, "1".toList, 0, 1, 1⟩] "/a".toList) := by
  refine ⟨by decide, by decide, ?_⟩
  exact ⟨⟨"/a".toList, "1".toList, 0, 1, 1⟩, by decide, 2, by decide, by decide, by decide,
    by decide, by decide⟩

/-! ## Parent paths -/

theorem child_parent (tl : LeaseLookup) (c : Char) (key : Str) (presp : Option KeyValue)
    (kvs : List KeyValue) (hkey : key ≠ []) (hpre : ∀ kv ∈ kvs, prefixKey [c] key <+: kv.key)
    (d l : Nat) (hl : minLevel [c] key ≤ l) (hln : l ≠ minLevel [c] key ∨ key ≠ [c])
    (n : Node) (hn : n ∈ linkedLevel [c] (buildLevels tl [c] key presp kvs).all d l) :
    ∀ ch ∈ n.nodes, parentPath [c] ch.key = n.key := by
  have inv := build_inv tl c key presp kvs hkey hpre
  have hf := (fresh_buildLevels tl [c] key presp kvs).2
  have hm := minLevel_pos c key
  obtain ⟨pa, hpa, cs, rfl, hcs⟩ := mem_linkedLevel _ _ _ _ _ hn
  intro ch hch
  rw [adopt_nodes, (hf l pa hpa).1, List.nil_append] at hch
  rw [adopt_key]
  rcases hcs with ⟨_, h0⟩ | ⟨d', _, hfil⟩
  · rw [h0] at hch; cases hch
  · rw [hfil] at hch
    obtain ⟨hch1, hch2⟩ := List.mem_filter.mp hch
    obtain ⟨a, ha, hka⟩ := List.mem_map.mp (linkedLevel_key_mem _ _ _ _ _ hch1)
    obtain ⟨p, hp, _, hk, hlev⟩ := node_src _ _ _ _ _ _ inv (l + 1) (by omega) a ha
    rw [hka] at hk
    by_cases hlm : l = minLevel [c] key
    · have hkc : key ≠ [c] := by
        rcases hln with h | h
        · exact absurd hlm h
        · exact h
      have hpk : pa.key = key := by
        rw [hlm, inv.root] at hpa
        have : pa = rootNode tl key presp := by simpa using hpa
        rw [this, rootNode_key]
      rw [hpk]
      apply parentPath_of_prefix
      · rw [hk, hlev, hlm]
        simp [minLevel, hkc, level]
      · rw [hk]
        exact steps_prefix c key kvs p hkc hpre hp
    · obtain ⟨_, _, _, hk2, hlev2⟩ := node_src _ _ _ _ _ _ inv l hlm pa hpa
      apply linkedKey_parent c (l + 1) _ _ (by omega) hch2
      rw [hk, hlev, hk2, hlev2]

/-- C2 (as the code has it): for a one-character separator and descendant
records whose keys start with the prefix of the range query, when the query
key is not the separator the parent path of every node other than the root is
the key of the node whose children hold it; when the query key is the
separator this holds below the children of the root, and the parent path of a
child of the root is the empty path, not the key of the root. -/
theorem getPath_parent_path (timeToLive : LeaseLookup) (c : Char) (key : Str)
    (presp : Option KeyValue) (resp : List KeyValue)
    (hpre : ∀ kv ∈ resp, prefixKey [c] key <+: kv.key) :
    ∃ root, getPath timeToLive [c] key presp resp = some root ∧
      (key ≠ [c] → ∀ n ∈ root.subnodes, ∀ ch ∈ n.nodes, parentPath [c] ch.key = n.key) ∧
      (key = [c] → ∀ top ∈ root.nodes, parentPath [c] top.key = [] ∧
        ∀ n ∈ top.subnodes, ∀ ch ∈ n.nodes, parentPath [c] ch.key = n.key) := by
  by_cases hkey : key = []
  · subst hkey
    refine ⟨rootNode timeToLive [] presp, getPath_empty_key _ _ _ _, ?_, ?_⟩
    · intro _ n hn ch hch
      rw [subnodes_of_nodes_nil _ (rootNode_nodes _ _ _)] at hn
      have : n = rootNode timeToLive [] presp := by simpa using hn
      rw [this, rootNode_nodes] at hch
      cases hch
    · intro h; cases h
  · have inv := build_inv timeToLive c key presp resp hkey hpre
    have hf := (fresh_buildLevels timeToLive [c] key presp resp).2
    obtain ⟨root, hget, hmem, _, _⟩ := tree_entries timeToLive c key presp resp hkey hpre
    refine ⟨root, hget, ?_, ?_⟩
    · intro hkc
      exact linkedLevel_forall [c] _ (fun n => ∀ ch ∈ n.nodes, parentPath [c] ch.key = n.key)
        (minLevel [c] key) (fun l n hn => (hf l n hn).1)
        (fun d l hl n hn =>
          child_parent timeToLive c key presp resp hkey hpre d l hl (Or.inr hkc) n hn)
        _ _ (le_refl _) root hmem
    · intro hkc top htop
      obtain ⟨pa, hpa, cs, rfl, hcs⟩ := mem_linkedLevel _ _ _ _ _ hmem
      rw [adopt_nodes, (hf _ pa hpa).1, List.nil_append] at htop
      rcases hcs with ⟨_, h0⟩ | ⟨d', _, hfil⟩
      · rw [h0] at htop; cases htop
      · rw [hfil] at htop
        have htop1 := (List.mem_filter.mp htop).1
        constructor
        · obtain ⟨a, ha, hka⟩ := List.mem_map.mp (linkedLevel_key_mem _ _ _ _ _ htop1)
          obtain ⟨p, hp, _, hk, hlev⟩ := node_src _ _ _ _ _ _ inv (minLevel [c] key + 1)
            (by omega) a ha
          obtain ⟨hr, _, j, _, h2, h3⟩ := (mem_steps _ _ _ _).mp hp
          have hm1 : minLevel [c] key = 1 := by simp [minLevel, hkc]
          have hj : level [c] p.2 = j := by
            rw [h3]; exact level_pathAt c _ j (by omega) h2
          have hj2 : j = 1 + 1 := by omega
          have hpk := hpre p.1 hr
          simp only [prefixKey, hkc, if_true] at hpk
          rw [← hka, hk, h3, hj2, parentPath_pathAt c _ 1 (by omega) (by omega),
            pathAt_one_of_sep c _ hpk]
        · exact linkedLevel_forall [c] _
            (fun n => ∀ ch ∈ n.nodes, parentPath [c] ch.key = n.key)
            (minLevel [c] key + 1) (fun l n hn => (hf l n hn).1)
            (fun d l hl n hn =>
              child_parent timeToLive c key presp resp hkey hpre d l (by omega)
                (Or.inl (by omega)) n hn)
            _ _ (le_refl _) top htop1

/-- C2, witness: the key `/foo` with the records `/foo/a` and `/foo/b/c`, which
give `/foo -> [/foo/a, /foo/b -> [/foo/b/c]]`, and the key `/` with the record
`/foo/b`. -/
theorem getPath_parent_path_witness :
    (∃ root, getPath (fun _ => .error []) ['/'] "/foo".toList none
        [⟨"/foo/a".toList, "1".toList, 0, 1, 1⟩, ⟨"/foo/b/c".toList, "2".toList, 0, 2, 2⟩] =
          some root ∧
      ∀ n ∈ root.subnodes, ∀ ch ∈ n.nodes, parentPath ['/'] ch.key = n.key) ∧
    (getPath (fun _ => .error []) ['/'] "/foo".toList none
        [⟨"/foo/a".toList, "1".toList, 0, 1, 1⟩, ⟨"/foo/b/c".toList, "2".toList, 0, 2, 2⟩]).map
      (fun root => root.subnodes.map (fun n => (n.key, n.nodes.map Node.key))) =
      some [("/foo".toList, ["/foo/a".toList, "/foo/b".toList]), ("/foo/a".toList, []),
        ("/foo/b".toList, ["/foo/b/c".toList]), ("/foo/b/c".toList, [])] ∧
    (∃ root, getPath (fun _ => .error []) ['/'] "/".toList none
        [⟨"/foo/b".toList, "1".toList, 0, 1, 1⟩] = some root ∧
      ∀ top ∈ root.nodes, parentPath ['/'] top.key = [] ∧
        ∀ n ∈ top.subnodes, ∀ ch ∈ n.nodes, parentPath ['/'] ch.key = n.key) := by
  refine ⟨?_, by decide, ?_⟩
  · obtain ⟨root, h1, h2, _⟩ := getPath_parent_path (fun _ => .error []) '/' "/foo".toList none
      [⟨"/foo/a".toList, "1".toList, 0, 1, 1⟩, ⟨"/foo/b/c".toList, "2".toList, 0, 2, 2⟩]
      (by decide)
    exact ⟨root, h1, h2 (by decide)⟩
  · obtain ⟨root, h1, _, h3⟩ := getPath_parent_path (fun _ => .error []) '/' "/".toList none
      [⟨"/foo/b".toList, "1".toList, 0, 1, 1⟩] (by decide)
    exact ⟨root, h1, h3 rfl⟩

/-- C2, counterexample: for the query key `/` and the record `/foo` the root
`/` has the child `/foo`, whose parent path is the empty path and not `/`. -/
theorem getPath_root_child_parent :
    (getPath (fun _ => .error []) ['/'] "/".toList none
        [⟨"/foo".toList, "1".toList, 0, 1, 1⟩]).map
      (fun root => (root.key, root.nodes.map (fun ch => (ch.key, parentPath ['/'] ch.key)))) =
      some ("/".toList, [("/foo".toList, [])]) := by
  decide

/-! ## The root query -/

/-- C4: for a one-character separator queried as the key, and records whose
keys start with the separator, the root of the returned tree has the separator
as its key, the keys of its children are, each once, the separator followed
by the first segment of a record key (the record of the separator itself, the
root, is no descendant), and no node below the root has a child of level 2. -/
theorem getPath_root_query (timeToLive : LeaseLookup) (c : Char) (presp : Option KeyValue)
    (resp : List KeyValue) (hpre : ∀ kv ∈ resp, [c] <+: kv.key) :
    ∃ root, getPath timeToLive [c] [c] presp resp = some root ∧ root.key = [c] ∧
      (root.nodes.map Node.key).Nodup ∧
      (∀ p, p ∈ root.nodes.map Node.key ↔
        ∃ r ∈ resp, r.key ≠ [c] ∧ p = [c] ++ firstSegment [c] r.key) ∧
      ∀ top ∈ root.nodes, ∀ n ∈ top.subnodes, ∀ ch ∈ n.nodes, level [c] ch.key ≠ 2 := by
  have hkey : ([c] : Str) ≠ [] := by simp
  have hpre' : ∀ kv ∈ resp, prefixKey [c] [c] <+: kv.key := by
    intro kv hkv
    simpa [prefixKey] using hpre kv hkv
  have hm1 : minLevel [c] [c] = 1 := by simp [minLevel]
  have inv := build_inv timeToLive c [c] presp resp hkey hpre'
  have hf := (fresh_buildLevels timeToLive [c] [c] presp resp).2
  obtain ⟨root, hget, hmem, hentry, _⟩ := tree_entries timeToLive c [c] presp resp hkey hpre'
  have hboth : root.nodes.map Node.key =
        ((buildLevels timeToLive [c] [c] presp resp).all 2).map Node.key ∧
      ∀ top ∈ root.nodes, ∃ d',
        top ∈ linkedLevel [c] (buildLevels timeToLive [c] [c] presp resp).all d' 2 := by
    obtain ⟨pa, hpa, cs, rfl, hcs⟩ := mem_linkedLevel _ _ _ _ _ hmem
    rw [adopt_nodes, (hf _ pa hpa).1, List.nil_append]
    rcases hcs with ⟨h0, h1⟩ | ⟨d', _, hfil⟩
    · have hmax : (buildLevels timeToLive [c] [c] presp resp).max < 2 := by
        have := inv.maxge
        omega
      rw [h1, inv.high 2 hmax]
      exact ⟨rfl, fun top htop => by cases htop⟩
    · rw [hfil, hm1]
      have : ∀ a ∈ linkedLevel [c] (buildLevels timeToLive [c] [c] presp resp).all d' (1 + 1),
          linkedKey [c] (1 + 1) a.key pa.key = true := by
        intro a _
        simp [linkedKey]
      rw [List.filter_eq_self.mpr this, linkedLevel_keys]
      exact ⟨rfl, fun top htop => ⟨d', htop⟩⟩
  obtain ⟨hnodes, htops⟩ := hboth
  refine ⟨root, hget, ?_, ?_, ?_, ?_⟩
  rotate_right
  · intro top htop
    obtain ⟨d', hd'⟩ := htops top htop
    apply linkedLevel_forall [c] _ (fun n => ∀ ch ∈ n.nodes, level [c] ch.key ≠ 2) 2
      (fun l n hn => (hf l n hn).1) _ d' 2 (le_refl _) top hd'
    intro d l hl n hn ch hch
    obtain ⟨pa, hpa, cs, rfl, hcs⟩ := mem_linkedLevel _ _ _ _ _ hn
    rw [adopt_nodes, (hf _ pa hpa).1, List.nil_append] at hch
    rcases hcs with ⟨_, h1⟩ | ⟨d'', _, hfil⟩
    · rw [h1] at hch; cases hch
    · rw [hfil] at hch
      obtain ⟨a, ha, hka⟩ := List.mem_map.mp
        (linkedLevel_key_mem _ _ _ _ _ (List.mem_filter.mp hch).1)
      obtain ⟨_, _, _, hk, hlev⟩ := node_src _ _ _ _ _ _ inv (l + 1) (by omega) a ha
      rw [← hka, hk, hlev]
      omega
  · rw [← entry_key, hentry, entry_key, rootNode_key]
  · rw [hnodes]
    exact inv.nodup 2
  · intro p
    rw [hnodes]
    constructor
    · intro hp
      obtain ⟨n, hn, rfl⟩ := List.mem_map.mp hp
      obtain ⟨q, hq, _, hk, hlev⟩ := node_src _ _ _ _ _ _ inv 2 (by omega) n hn
      obtain ⟨hr, hs, j, _, h2, h3⟩ := (mem_steps _ _ _ _).mp hq
      have hj : level [c] q.2 = j := by
        rw [h3]; exact level_pathAt c _ j (by omega) h2
      refine ⟨q.1, hr, hs, ?_⟩
      rw [hk, h3, ← hj, hlev]
      exact pathAt_two c _ (hpre _ hr)
    · rintro ⟨r, hr, hs, rfl⟩
      have hl := level_record c [c] r.key (hpre' r hr)
      have hq : (r, pathAt [c] r.key 2) ∈ steps [c] [c] resp :=
        (mem_steps _ _ _ _).mpr ⟨hr, hs, 2, by omega, (by omega : 2 ≤ level [c] r.key), rfl⟩
      have hc := inv.compl _ hq
      simp only at hc
      rw [level_pathAt c r.key 2 (by omega) (by omega), pathAt_two c _ (hpre r hr)] at hc
      exact hc

/-- C4, witness: the records `/bar/x`, `/foo` and `/foo/y` give the root `/`
the children `/bar` and `/foo`. -/
theorem getPath_root_query_witness :
    ∃ root, getPath (fun _ => .error []) ['/'] ['/'] none
        [⟨"/bar/x".toList, "1".toList, 0, 1, 1⟩, ⟨"/foo".toList, "2".toList, 0, 2, 2⟩,
          ⟨"/foo/y".toList, "3".toList, 0, 3, 3⟩] = some root ∧ root.key = ['/'] ∧
      (root.nodes.map Node.key).Nodup ∧
      (∀ p, p ∈ root.nodes.map Node.key ↔
        ∃ r ∈ ([⟨"/bar/x".toList, "1".toList, 0, 1, 1⟩, ⟨"/foo".toList, "2".toList, 0, 2, 2⟩,
          ⟨"/foo/y".toList, "3".toList, 0, 3, 3⟩] : List KeyValue),
            r.key ≠ ['/'] ∧ p = ['/'] ++ firstSegment ['/'] r.key) ∧
      ∀ top ∈ root.nodes, ∀ n ∈ top.subnodes, ∀ ch ∈ n.nodes, level ['/'] ch.key ≠ 2 :=
  getPath_root_query (fun _ => .error []) '/' none
    [⟨"/bar/x".toList, "1".toList, 0, 1, 1⟩, ⟨"/foo".toList, "2".toList, 0, 2, 2⟩,
      ⟨"/foo/y".toList, "3".toList, 0, 3, 3⟩] (by decide)

/-! ## The order of the children -/

/-- C5 (as the code has it): for a one-character separator, every query key
and descendant records sorted ascending by key whose keys start with the
prefix of the range query and hold, behind that prefix, no character below the
separator, the children of every node of the returned tree are in strictly
ascending order of their keys. The characters of the query key are free. -/
theorem getPath_children_sorted (timeToLive : LeaseLookup) (c : Char) (key : Str)
    (presp : Option KeyValue) (resp : List KeyValue)
    (hsorted : resp.Pairwise (fun a b => strLt b.key a.key = false))
    (hpre : ∀ kv ∈ resp, prefixKey [c] key <+: kv.key)
    (hge : ∀ kv ∈ resp, ∀ x ∈ kv.key.drop (prefixKey [c] key).length, ¬ x < c) :
    ∃ root, getPath timeToLive [c] key presp resp = some root ∧
      ∀ n ∈ root.subnodes, (n.nodes.map Node.key).Pairwise (fun a b => strLt a b = true) := by
  by_cases hkey : key = []
  · subst hkey
    refine ⟨rootNode timeToLive [] presp, getPath_empty_key _ _ _ _, ?_⟩
    intro n hn
    rw [subnodes_of_nodes_nil _ (rootNode_nodes _ _ _)] at hn
    have : n = rootNode timeToLive [] presp := by simpa using hn
    rw [this, rootNode_nodes]
    exact List.Pairwise.nil
  · have hf := (fresh_buildLevels timeToLive [c] key presp resp).2
    obtain ⟨root, hget, hmem, _, _⟩ := tree_entries timeToLive c key presp resp hkey hpre
    have hlevels : ∀ l, l ≠ minLevel [c] key →
        (((buildLevels timeToLive [c] key presp resp).all l).map Node.key).Pairwise
          (fun a b => strLt a b = true) := by
      rw [buildLevels_eq timeToLive c key presp resp hkey hpre]
      exact runSteps_sorted timeToLive [c] key presp _
        (fun p hp => (steps_level c key resp p hp).1) (steps_sorted c key resp hsorted hpre hge)
    refine ⟨root, hget, ?_⟩
    apply linkedLevel_forall [c] _
      (fun n => (n.nodes.map Node.key).Pairwise (fun a b => strLt a b = true))
      (minLevel [c] key) (fun l n hn => (hf l n hn).1) _ _ _ (le_refl _) root hmem
    intro d l hl n hn
    obtain ⟨pa, hpa, cs, rfl, hcs⟩ := mem_linkedLevel _ _ _ _ _ hn
    rw [adopt_nodes, (hf l pa hpa).1, List.nil_append]
    rcases hcs with ⟨_, h0⟩ | ⟨d', _, hfil⟩
    · rw [h0]; exact List.Pairwise.nil
    · have hsub : (cs.map Node.key).Sublist
          (((buildLevels timeToLive [c] key presp resp).all (l + 1)).map Node.key) := by
        rw [← linkedLevel_keys [c] _ d' (l + 1), hfil]
        exact (List.filter_sublist _).map _
      exact (hlevels (l + 1) (by omega)).sublist hsub

/-- C5, witness: the records `/my-app/a/c` and `/my-app/ab` below `/my-app`,
a query key that holds a character below the separator. -/
theorem getPath_children_sorted_witness :
    (∃ root, getPath (fun _ => .error []) ['/'] "/my-app".toList none
        [⟨"/my-app/a/c".toList, "1".toList, 0, 1, 1⟩,
          ⟨"/my-app/ab".toList, "2".toList, 0, 2, 2⟩] = some root ∧
      ∀ n ∈ root.subnodes,
        (n.nodes.map Node.key).Pairwise (fun a b => strLt a b = true)) ∧
    (getPath (fun _ => .error []) ['/'] "/my-app".toList none
        [⟨"/my-app/a/c".toList, "1".toList, 0, 1, 1⟩,
          ⟨"/my-app/ab".toList, "2".toList, 0, 2, 2⟩]).map
      (fun root => root.subnodes.map (fun n => (n.key, n.nodes.map Node.key))) =
      some [("/my-app".toList, ["/my-app/a".toList, "/my-app/ab".toList]),
        ("/my-app/a".toList, ["/my-app/a/c".toList]), ("/my-app/a/c".toList, []),
        ("/my-app/ab".toList, [])] :=
  ⟨getPath_children_sorted (fun _ => .error []) '/' "/my-app".toList none
    [⟨"/my-app/a/c".toList, "1".toList, 0, 1, 1⟩, ⟨"/my-app/ab".toList, "2".toList, 0, 2, 2⟩]
    (by decide) (by decide) (by decide), by decide⟩

/-- C5, counterexample: the records `/foo/a-b` and `/foo/a/c` are sorted
ascending, since `-` is below `/`, and the root `/foo` gets the children
`/foo/a-b` and `/foo/a` in this order, which is not ascending. And for the
separator `aa`, the key `k` and the sorted records `kaaba` and `kaabaax`, in
which no character is below `a`, the root gets the children `kaaba` and `kaab`
in this order, which is not ascending either. -/
theorem getPath_children_unsorted :
    (List.Pairwise (fun a b => strLt b a = false) ["/foo/a-b".toList, "/foo/a/c".toList] ∧
    (getPath (fun _ => .error []) ['/'] "/foo".toList none
        [⟨"/foo/a-b".toList, "1".toList, 0, 1, 1⟩, ⟨"/foo/a/c".toList, "2".toList, 0, 2, 2⟩]).map
      (fun root => root.nodes.map Node.key) = some ["/foo/a-b".toList, "/foo/a".toList] ∧
    strLt "/foo/a-b".toList "/foo/a".toList = false) ∧
    (List.Pairwise (fun a b => strLt b a = false) ["kaaba".toList, "kaabaax".toList] ∧
    (getPath (fun _ => .error []) "aa".toList "k".toList none
        [⟨"kaaba".toList, "1".toList, 0, 1, 1⟩, ⟨"kaabaax".toList, "2".toList, 0, 2, 2⟩]).map
      (fun root => root.nodes.map Node.key) = some ["kaaba".toList, "kaab".toList] ∧
    strLt "kaaba".toList "kaab".toList = false) := by
  decide

/-! ## `strings_compare` -/

/-- C10 (as the code has it): `strings_compare a b` holds exactly when the two
lists have the same length and every string of `b` occurs in `a`; when no
string is repeated in `b`, that is exactly when `b` is a permutation of `a`. -/
theorem strings_compare_iff (a b : List Str) :
    (strings_compare a b = true ↔ a.length = b.length ∧ ∀ x ∈ b, x ∈ a) ∧
    (b.Nodup → (strings_compare a b = true ↔ b.Perm a)) := by
  have key : strings_compare a b = true ↔ a.length = b.length ∧ ∀ x ∈ b, x ∈ a := by
    unfold strings_compare
    by_cases h : a.length = b.length
    · simp only [h, ne_eq, not_true_eq_false, if_false, List.all_eq_true, List.any_eq_true,
        beq_iff_eq, true_and]
      constructor
      · intro H x hx
        obtain ⟨y, hy, rfl⟩ := H x hx
        exact hy
      · intro H x hx
        exact ⟨x, H x hx, rfl⟩
    · simp [h]
  refine ⟨key, fun hb => ?_⟩
  rw [key]
  constructor
  · rintro ⟨hlen, hsub⟩
    exact (List.subperm_of_subset hb hsub).perm_of_length_le (le_of_eq hlen)
  · intro hp
    exact ⟨hp.length_eq.symm, fun x hx => hp.subset hx⟩

/-- C10, witness: the endpoint lists `["a", "b"]` and `["b", "a"]`. -/
theorem strings_compare_iff_witness :
    ["b".toList, "a".toList].Nodup ∧
      (strings_compare ["a".toList, "b".toList] ["b".toList, "a".toList] = true ↔
        List.Perm ["b".toList, "a".toList] ["a".toList, "b".toList]) :=
  ⟨by decide, (strings_compare_iff ["a".toList, "b".toList] ["b".toList, "a".toList]).2
    (by decide)⟩

/-- C10, counterexample: on `["x", "x", "y"]` and `["x", "y", "y"]` the answer
is `true` although the second list is no permutation of the first, and on
`["x", "y"]`, `["x", "x"]` the answer depends on the order of the arguments. -/
theorem strings_compare_not_perm :
    ¬ (strings_compare ["x".toList, "x".toList, "y".toList]
          ["x".toList, "y".toList, "y".toList] = true ↔
        List.Perm ["x".toList, "y".toList, "y".toList] ["x".toList, "x".toList, "y".toList]) ∧
      strings_compare ["x".toList, "y".toList] ["x".toList, "x".toList] ≠
        strings_compare ["x".toList, "x".toList] ["x".toList, "y".toList] := by
  decide

/-! ## `getTTL` -/

/-- C9 (as the code has it): `getTTL` is total; it is `0` when the lookup
fails and when the reported TTL is `-1`, and the reported TTL otherwise; so it
is non-negative as soon as the store reports no TTL below `-1`, and `0` for the
lease `0` as soon as the store answers that lease with an error or `-1`. -/
theorem getTTL_spec (timeToLive : LeaseLookup) (lease : Int) :
    (∀ e, timeToLive lease = .error e → getTTL timeToLive lease = 0) ∧
    (timeToLive lease = .ok (-1) → getTTL timeToLive lease = 0) ∧
    (∀ t, timeToLive lease = .ok t → t ≠ -1 → getTTL timeToLive lease = t) ∧
    ((∀ t, timeToLive lease = .ok t → -1 ≤ t) → 0 ≤ getTTL timeToLive lease) := by
  unfold getTTL
  refine ⟨?_, ?_, ?_, ?_⟩
  · intro e h; rw [h]
  · intro h; rw [h]; rfl
  · intro t h ht; rw [h]; simp [ht]
  · intro H
    cases h : timeToLive lease with
    | error e => simp
    | ok t =>
      have := H t h
      by_cases ht : t = -1
      · simp [ht]
      · simp only [ht, if_false]; omega

/-- C9, witness: a store that reports 30 seconds for the lease 7. -/
theorem getTTL_spec_witness :
    getTTL (fun _ => .ok 30) 7 = 30 ∧ 0 ≤ getTTL (fun _ => .ok 30) 7 :=
  ⟨(getTTL_spec (fun _ => .ok 30) 7).2.2.1 30 rfl (by decide),
   (getTTL_spec (fun _ => .ok 30) 7).2.2.2 (fun t h => by cases h; decide)⟩

/-- C9, counterexample: a store that reports the TTL `-2` makes `getTTL`
negative, and a store that reports 30 seconds for the lease `0` makes
`getTTL 0` differ from `0`. -/
theorem getTTL_negative :
    getTTL (fun _ => .ok (-2)) 5 < 0 ∧ getTTL (fun _ => .ok 30) 0 ≠ 0 := by
  decide

/-! ## `del` -/

/-- C8: after a recursive `del` the store holds exactly the records of the
store before whose key is neither `key` nor starts with `key ++ separator`, in
the same order and unchanged; the response is `ok`. -/
theorem del_recursive (separator key : Str) (s : Store) :
    (del separator key "true".toList s).1 = "ok".toList ∧
    (del separator key "true".toList s).2 =
      s.filter (fun e => decide (e.key ≠ key ∧ ¬ (key ++ separator) <+: e.key)) := by
  constructor
  · simp [del]
  · simp only [del, if_true, storeDelete, storeDeletePrefix, hasPrefix, List.filter_filter]
    congr 1
    funext e
    have hp : (key ++ separator).isPrefixOf e.key = true ↔ (key ++ separator) <+: e.key :=
      List.isPrefixOf_iff_prefix
    by_cases h1 : e.key = key <;> cases h2 : (key ++ separator).isPrefixOf e.key <;>
      simp [h1, h2, ← hp]

/-- C8, witness: deleting `/foo` recursively removes `/foo` and the keys that
start with `/foo/`, and keeps `/foobar` and `/x` with their values. -/
theorem del_recursive_witness :
    (del ['/'] "/foo".toList "true".toList
        [⟨"/foo".toList, "1".toList, 0, 1, 1⟩, ⟨"/foo/a".toList, "2".toList, 0, 2, 2⟩,
          ⟨"/foo/a/b".toList, "3".toList, 0, 3, 3⟩, ⟨"/foobar".toList, "4".toList, 0, 4, 4⟩,
          ⟨"/x".toList, "5".toList, 0, 5, 5⟩]).2 =
      [⟨"/foobar".toList, "4".toList, 0, 4, 4⟩, ⟨"/x".toList, "5".toList, 0, 5, 5⟩] :=
  ((del_recursive ['/'] "/foo".toList
    [⟨"/foo".toList, "1".toList, 0, 1, 1⟩, ⟨"/foo/a".toList, "2".toList, 0, 2, 2⟩,
      ⟨"/foo/a/b".toList, "3".toList, 0, 3, 3⟩, ⟨"/foobar".toList, "4".toList, 0, 4, 4⟩,
      ⟨"/x".toList, "5".toList, 0, 5, 5⟩]).2).trans (by decide)

end Etcdkeeper
